import Mathlib

/-!
Verification of the pyds PDS/ODL label library (src/pyds): a shallow
embedding in Lean 4 of the tokenizer (parser.py, regex table
ODL_LEX_TOK_SPEC and the finditer loop of _generate_tokens), the
recursive-descent parser (_parse_units, _parse_value, _parse_stmt,
_parse_label), the typed value model (values.py) and the statement
containers with the serializer (statements.py).

Modelling conventions, stated once:

* Byte strings are modelled as Lean strings over their characters; the
  source only ever manipulates bytes through the ASCII range, and
  `bytes.decode("utf-8")` on ASCII payloads is the identity.  A byte
  that is not ASCII is represented by the character with that code
  point (e.g. 0x80), which the embedded tokenizer treats exactly as the
  compiled regex does: no alternative matches it.
* Python `int` is `Int`; `%` on non-negative divisors is `Int.emod`,
  which agrees with Python's `%` for every dividend.
* Python `float` is idealized as the exact fraction type `PyRat`
  below (kept in lowest terms by construction).  Wherever a proof or a concrete
  evaluation below touches a float, the input is chosen so that the
  IEEE-754 double semantics and the exact rational semantics agree
  (tiny decimal literals that round to zero at twelve fractional
  digits, and small decimal fractions that are formatted back
  exactly).  No theorem in this file depends on binary rounding.
* `str.upper()` / `str.lower()` are modelled for the ASCII range, the
  only range the grammar admits.
* The generator-based token stream of `_generate_tokens` with its
  one-slot `send` push-back becomes an explicit `List Token`; `next`
  on the exhausted stream is the `stopIteration` error.  The code
  dates from 2015 and targets the contemporary CPython semantics
  (pre PEP 479): a `StopIteration` that reaches a generator frame
  (the `gen_values` element generators inside `_parse_value`) ends
  that generator silently; through plain frames it propagates, and
  `_parse_label` converts it to `ParsingError("unexpected end")`.
* Python's recursion limit is modelled by the explicit fuel of the
  recursive parser functions; exhausting it is the `recursionLimit`
  error, the analogue of `RecursionError`.
* A Python `set` of values is modelled as its insertion-ordered list
  of distinct elements; no claim below depends on hash order.
-/

namespace Pyds

/-- The kinds of exception the embedded code can raise.  `valueError`,
`typeError`, `keyError`, `indexError` and `runtimeError` are the
built-in Python exceptions of those names; `parsingError` is
`pyds.parser.ParsingError`; `stopIteration` is the exhaustion signal of
the token generator; `recursionLimit` models `RecursionError`. -/
inductive Err where
  | valueError (msg : String)
  | typeError (msg : String)
  | keyError (msg : String)
  | indexError (msg : String)
  | runtimeError (msg : String)
  | parsingError (msg : String)
  | stopIteration
  | recursionLimit
deriving DecidableEq, Repr

/-- Decidable equality of outcomes, used to evaluate the embedding at
concrete inputs. -/
instance {e a : Type} [DecidableEq e] [DecidableEq a] :
    DecidableEq (Except e a) := fun x y =>
  match x, y with
  | .ok u, .ok v => decidable_of_iff (u = v) (by simp)
  | .error u, .error v => decidable_of_iff (u = v) (by simp)
  | .ok _, .error _ => isFalse (by simp)
  | .error _, .ok _ => isFalse (by simp)

/-- ASCII uppercase of one character, as Python `str.upper` acts on the
ASCII range: `a`..`z` map down by 32, everything else is fixed. -/
def upChar (c : Char) : Char :=
  if 97 ≤ c.toNat ∧ c.toNat ≤ 122 then Char.ofNat (c.toNat - 32) else c

/-- ASCII lowercase of one character (Python `str.lower` on ASCII). -/
def loChar (c : Char) : Char :=
  if 65 ≤ c.toNat ∧ c.toNat ≤ 90 then Char.ofNat (c.toNat + 32) else c

/-- Python `str.upper()` restricted to the ASCII range. -/
def pyUpper (s : String) : String := ⟨s.data.map upChar⟩

/-- Python `str.lower()` restricted to the ASCII range. -/
def pyLower (s : String) : String := ⟨s.data.map loChar⟩

theorem toNat_charOfNat (n : Nat) (h : n.isValidChar) :
    (Char.ofNat n).toNat = n := by
  simp [Char.ofNat, Char.toNat, Char.ofNatAux, h, UInt32.toNat,
    BitVec.toNat_ofNatLt]

theorem upChar_toNat_of_lower {c : Char} (h : 97 ≤ c.toNat ∧ c.toNat ≤ 122) :
    (upChar c).toNat = c.toNat - 32 := by
  have hv : (c.toNat - 32).isValidChar := Or.inl (by omega)
  simp only [upChar, if_pos h]
  exact toNat_charOfNat _ hv

theorem upChar_idem (c : Char) : upChar (upChar c) = upChar c := by
  by_cases h : 97 ≤ c.toNat ∧ c.toNat ≤ 122
  · have ht := upChar_toNat_of_lower h
    have hnot : ¬(97 ≤ (upChar c).toNat ∧ (upChar c).toNat ≤ 122) := by omega
    conv_lhs => rw [upChar, if_neg hnot]
  · simp only [upChar, if_neg h]

theorem pyUpper_idem (s : String) : pyUpper (pyUpper s) = pyUpper s := by
  have hf : upChar ∘ upChar = upChar := funext upChar_idem
  simp [pyUpper, List.map_map, hf]

/-- Decimal digit test (the regex class `[0-9]`). -/
def isDig (c : Char) : Bool := 48 ≤ c.toNat && c.toNat ≤ 57

/-- ASCII letter test (the regex class `[a-zA-Z]`). -/
def isLet (c : Char) : Bool :=
  (65 ≤ c.toNat && c.toNat ≤ 90) || (97 ≤ c.toNat && c.toNat ≤ 122)

/-- Letters and digits (the regex class `[0-9a-zA-Z]`). -/
def isAlnum (c : Char) : Bool := isLet c || isDig c

/-- Numeric value of one digit character for bases up to 16, as Python
`int(s, base)` reads it: `0`-`9`, then `a`-`z`/`A`-`Z` starting at 10.
Characters that are no digit at all get the out-of-range value 99. -/
def digVal (c : Char) : Nat :=
  if 48 ≤ c.toNat ∧ c.toNat ≤ 57 then c.toNat - 48
  else if 97 ≤ c.toNat ∧ c.toNat ≤ 122 then c.toNat - 87
  else if 65 ≤ c.toNat ∧ c.toNat ≤ 90 then c.toNat - 55
  else 99

/-- Left fold of digit values: the number the digit list denotes in the
given base. -/
def digitsFold (base : Int) : List Char → Int → Int
  | [], acc => acc
  | c :: cs, acc => digitsFold base cs (acc * base + (digVal c : Int))

/-- Python `int(s)` on a decimal literal: one optional sign then at
least one decimal digit.  (Surrounding whitespace and underscores are
not modelled; no capture the tokenizer produces contains them.) -/
def pyIntDec (s : String) : Option Int :=
  match s.data with
  | [] => none
  | '+' :: rest =>
      if rest ≠ [] ∧ rest.all isDig then some (digitsFold 10 rest 0) else none
  | '-' :: rest =>
      if rest ≠ [] ∧ rest.all isDig then some (-(digitsFold 10 rest 0)) else none
  | l =>
      if l.all isDig then some (digitsFold 10 l 0) else none

/-- The base prefixes Python `int(s, base)` strips: `0b`/`0B` for base
2, `0o`/`0O` for base 8, `0x`/`0X` for base 16. -/
def stripBasePre (base : Int) (l : List Char) : List Char :=
  match l with
  | c :: p :: rest =>
      if c = '0' ∧
         ((base = 2 ∧ (p = 'b' ∨ p = 'B')) ∨
          (base = 8 ∧ (p = 'o' ∨ p = 'O')) ∨
          (base = 16 ∧ (p = 'x' ∨ p = 'X'))) then rest else c :: p :: rest
  | l => l

/-- The unsigned part of Python `int(digits, base)`: optional matching
base prefix, then at least one digit valid in the base. -/
def pyIntBaseCore (base : Int) (l : List Char) : Option Int :=
  let l := stripBasePre base l
  if l ≠ [] ∧ l.all (fun c => (digVal c : Int) < base) then
    some (digitsFold base l 0)
  else none

/-- Python `int(digits, base)` for bases 2..16: optional sign, then
the unsigned part. -/
def pyIntBase (s : String) (base : Int) : Option Int :=
  match s.data with
  | [] => none
  | c :: rest =>
      if c = '+' then pyIntBaseCore base rest
      else if c = '-' then (pyIntBaseCore base rest).map (fun n => -n)
      else pyIntBaseCore base (c :: rest)

/-- The exact-fraction idealization of a Python float: a numerator and
a positive denominator, kept coprime by the smart constructor
`pyRatMk`, so that structural equality coincides with numeric
equality for every value this embedding builds. -/
structure PyRat where
  num : Int
  den : Nat
deriving DecidableEq, Repr

/-- Build a `PyRat` in lowest terms from a numerator and a positive
denominator. -/
def pyRatMk (n : Int) (d : Nat) : PyRat :=
  let g := Nat.gcd n.natAbs d
  if g = 0 then ⟨0, 1⟩ else ⟨n / (g : Int), d / g⟩

/-- `q < m` for an integer bound (the denominator is positive). -/
def PyRat.ltInt (q : PyRat) (m : Int) : Bool :=
  q.num < m * (q.den : Int)

/-- `m < q` for an integer bound. -/
def PyRat.gtInt (q : PyRat) (m : Int) : Bool :=
  m * (q.den : Int) < q.num

/-- Python `float(s)` on the literal shapes the grammar produces
(`digits`, `digits.digits*`, `.digits`, each optionally signed and
optionally followed by an exponent), idealized as an exact rational. -/
def pyFloat (s : String) : Option PyRat :=
  let mantissa := fun (l : List Char) =>
    let intPart := l.takeWhile isDig
    let rest := l.dropWhile isDig
    match rest with
    | [] => if intPart ≠ [] then some ((digitsFold 10 intPart 0 : Int), ([] : List Char), ([] : List Char)) else none
    | '.' :: frac =>
        let fracDigs := frac.takeWhile isDig
        let rest2 := frac.dropWhile isDig
        if intPart = [] ∧ fracDigs = [] then none
        else some ((digitsFold 10 intPart 0 : Int), fracDigs, rest2)
    | _ => if intPart ≠ [] then some ((digitsFold 10 intPart 0 : Int), ([] : List Char), rest) else none
  let expo := fun (l : List Char) =>
    match l with
    | [] => some (0 : Int)
    | e :: rest =>
        if e = 'e' ∨ e = 'E' then
          match rest with
          | '+' :: ds => if ds ≠ [] ∧ ds.all isDig then some (digitsFold 10 ds 0) else none
          | '-' :: ds => if ds ≠ [] ∧ ds.all isDig then some (-(digitsFold 10 ds 0)) else none
          | ds => if ds ≠ [] ∧ ds.all isDig then some (digitsFold 10 ds 0) else none
        else none
  let build := fun (sgn : Int) (l : List Char) =>
    match mantissa l with
    | none => none
    | some (ip, fracDigs, rest) =>
        match expo rest with
        | none => none
        | some e =>
            let m : Int := ip * 10 ^ fracDigs.length +
              digitsFold 10 fracDigs 0
            if 0 ≤ e then
              some (pyRatMk (sgn * m * 10 ^ e.toNat) (10 ^ fracDigs.length))
            else
              some (pyRatMk (sgn * m) (10 ^ (fracDigs.length + (-e).toNat)))
  match s.data with
  | '+' :: rest => build 1 rest
  | '-' :: rest => build (-1) rest
  | l => build 1 l

/-- Zero-pad the decimal form of a non-negative integer on the left to
the given width (the core of Python's `{:02d}` format). -/
def padZero (width : Nat) (n : Nat) : String :=
  let s := toString n
  ⟨List.replicate (width - s.length) '0' ++ s.data⟩

/-- Python `"{:02d}".format(n)` for the non-negative values the
serializer feeds it. -/
def fmt02d (n : Int) : String := padZero 2 n.toNat

/-- Python `"{:+03d}".format(n)`: an explicit sign followed by the
absolute value zero-padded to two digits, for |n| < 100. -/
def fmtPlus03d (n : Int) : String :=
  (if n < 0 then "-" else "+") ++ padZero 2 n.natAbs

/-- Round the fraction n/d (d positive) to the nearest integer, ties
to even: the rounding of Python fixed-point float formatting. -/
def roundHalfEven (n : Int) (d : Nat) : Int :=
  let f : Int := Int.fdiv n (d : Int)
  let r : Int := n - f * (d : Int)
  if 2 * r < (d : Int) then f
  else if (d : Int) < 2 * r then f + 1
  else if f % 2 = 0 then f else f + 1

/-- Python `"{:015.12f}".format(x)` for non-negative x: twelve rounded
fractional digits, then the whole string zero-padded on the left to
width 15. -/
def fmt01512f (q : PyRat) : String :=
  let scaled : Int := roundHalfEven (q.num * 10 ^ (12 : Nat)) q.den
  let n : Nat := scaled.toNat
  let ip : Nat := n / 10 ^ (12 : Nat)
  let fp : Nat := n % 10 ^ (12 : Nat)
  let body := toString ip ++ "." ++ padZero 12 fp
  ⟨List.replicate (15 - body.length) '0' ++ body.data⟩

/-- Python `str.rstrip(chars)` for a one-character strip set. -/
def rstrip (c : Char) (s : String) : String :=
  ⟨(s.data.reverse.dropWhile (fun d => d = c)).reverse⟩

/-- Left-justify to the given width with spaces: Python
`format(s, str(width))` on a string argument. -/
def padRight (s : String) (width : Nat) : String :=
  ⟨s.data ++ List.replicate (width - s.data.length) ' '⟩

end Pyds

namespace Pyds

/-- The reserved words of the grammar, lower-case (the negative
lookahead shared by every identifier regex in values.py and
statements.py). -/
def reservedWords : List String :=
  ["end", "group", "begin_group", "end_group", "object", "begin_object",
   "end_object"]

/-- Greedy match of the identifier tail regex `(?:_?[0-9a-zA-Z])*`:
returns the consumed characters and the rest.  An underscore is only
consumed when a letter or digit follows it. -/
def identRestSpan : List Char → (List Char × List Char)
  | [] => ([], [])
  | c :: rest =>
    if isAlnum c then
      let p := identRestSpan rest
      (c :: p.1, p.2)
    else if c = '_' then
      match rest with
      | [] => ([], ['_'])
      | d :: rest2 =>
        if isAlnum d then
          let p := identRestSpan rest2
          ('_' :: d :: p.1, p.2)
        else ([], '_' :: d :: rest2)
    else ([], c :: rest)

/-- Full match of the plain identifier regex of `values.Identifier` and
`Statement._VALID_IDENT_RE`: a letter followed by the identifier tail,
the whole string not being a reserved word (case-insensitively). -/
def identifierOk (s : String) : Bool :=
  match s.data with
  | [] => false
  | c :: rest =>
      isLet c && (identRestSpan rest).2 == ([] : List Char) &&
        !(reservedWords.contains (pyLower s))

/-- Full match of `Attribute._VALID_IDENT_RE`: an optional
`NAMESPACE:` or `^` followed by a plain identifier. -/
def attrIdentOk (s : String) : Bool :=
  match s.data with
  | '^' :: rest => identifierOk ⟨rest⟩
  | l =>
    let pre := l.takeWhile (fun c => c ≠ ':')
    match l.dropWhile (fun c => c ≠ ':') with
    | [] => identifierOk ⟨pre⟩
    | ':' :: rest =>
        if rest.contains ':' then false
        else identifierOk ⟨pre⟩ && identifierOk ⟨rest⟩
    | _ => false

/-- Full match of `Text._VALID_RE`: any characters in
`\x00`-`\x7f` except the double quote. -/
def textOk (s : String) : Bool :=
  s.data.all (fun c => c.toNat ≤ 127 && c.toNat ≠ 34)

/-- Full match of `Symbol._VALID_RE`: at least one printable character
other than the single quote. -/
def symbolOk (s : String) : Bool :=
  s.data ≠ [] &&
    s.data.all (fun c => 32 ≤ c.toNat && c.toNat ≤ 126 && c.toNat ≠ 39)

/-- One term of the units regex: the reserved-word lookahead (which
tests the whole remaining string, since the pattern anchors it with
`$`), a plain identifier, then an optional `**` signed integer.
Returns the rest of the input after the term. -/
def unitsTerm (l : List Char) : Option (List Char) :=
  if reservedWords.contains (pyLower ⟨l⟩) then none
  else
    match l with
    | [] => none
    | c :: rest =>
      if isLet c then
        let r := (identRestSpan rest).2
        match r with
        | '*' :: '*' :: r2 =>
            let r3 := match r2 with
              | '+' :: ds => if (ds.takeWhile isDig) ≠ [] then some (ds.dropWhile isDig) else none
              | '-' :: ds => if (ds.takeWhile isDig) ≠ [] then some (ds.dropWhile isDig) else none
              | ds => if (ds.takeWhile isDig) ≠ [] then some (ds.dropWhile isDig) else none
            match r3 with
            | some r4 => some r4
            | none => some r
        | _ => some r
      else none

/-- The `([*/] term)*` suffix of the units regex, with explicit fuel
bounded by the input length. -/
def unitsChk : Nat → List Char → Bool
  | _, [] => true
  | 0, _ :: _ => false
  | fuel + 1, c :: rest =>
      if c = '*' ∨ c = '/' then
        match unitsTerm rest with
        | some r => unitsChk fuel r
        | none => false
      else false

/-- Full match of `Units._VALID_RE`. -/
def unitsExprOk (s : String) : Bool :=
  match unitsTerm s.data with
  | some r => unitsChk s.data.length r
  | none => false

/-- `values.Units`: a validated units expression, stored upper-cased. -/
structure Units where
  expression : String
deriving DecidableEq, Repr

/-- `Units.__init__`. -/
def unitsInit (expression : String) (validate : Bool := true) :
    Except Err Units :=
  if validate ∧ ¬unitsExprOk expression then
    .error (.valueError ("invalid expression " ++ expression))
  else .ok ⟨pyUpper expression⟩

/-- `values.Date`: year, optional month, day, exactly the fields the
constructor stores. -/
structure PDate where
  year : Int
  month : Option Int
  day : Int
deriving DecidableEq, Repr

/-- `values.Time`: the six fields the constructor stores.  The second
is idealized as a rational. -/
structure PTime where
  hour : Int
  minute : Int
  second : Option PyRat
  utc : Bool
  zoneHour : Option Int
  zoneMinute : Option Int
deriving DecidableEq, Repr

/-- The scalar value variants of values.py.  `basedInteger` keeps the
derived base-10 value next to the radix and digit string, as the
source object does; since the value is a function of the other two,
structural equality below coincides with the source's field equality
(which compares radix, digits and units). -/
inductive PScalar where
  | integer (value : Int) (units : Option Units)
  | basedInteger (radix : Int) (digits : String) (value : Int)
      (units : Option Units)
  | real (value : PyRat) (units : Option Units)
  | text (value : String)
  | symbol (value : String)
  | identifier (value : String)
  | date (d : PDate)
  | time (t : PTime)
  | dateTime (d : PDate) (t : PTime)
deriving DecidableEq, Repr

/-- The value tree of values.py.  `set` holds its insertion-ordered
elements; `seq1` is `Sequence1D` and `seq2` is `Sequence2D` (whose
elements may again be one- or two-dimensional sequences, because
`Sequence2D` subclasses `Sequence1D` in the source). -/
inductive PValue where
  | scalar (s : PScalar)
  | set (elems : List PScalar)
  | seq1 (elems : List PValue)
  | seq2 (elems : List PValue)
deriving Repr

mutual

/-- Structural equality on `PValue`. -/
def pvalEq : PValue → PValue → Bool
  | .scalar a, .scalar b => a == b
  | .set a, .set b => a == b
  | .seq1 a, .seq1 b => pvalListEq a b
  | .seq2 a, .seq2 b => pvalListEq a b
  | _, _ => false

/-- Structural equality on lists of `PValue`. -/
def pvalListEq : List PValue → List PValue → Bool
  | [], [] => true
  | a :: as_, b :: bs => pvalEq a b && pvalListEq as_ bs
  | _, _ => false

end

mutual

theorem pvalEq_iff : ∀ a b, pvalEq a b = true ↔ a = b
  | .scalar _, .scalar _ => by simp [pvalEq]
  | .scalar _, .set _ => by simp [pvalEq]
  | .scalar _, .seq1 _ => by simp [pvalEq]
  | .scalar _, .seq2 _ => by simp [pvalEq]
  | .set _, .scalar _ => by simp [pvalEq]
  | .set _, .set _ => by simp [pvalEq]
  | .set _, .seq1 _ => by simp [pvalEq]
  | .set _, .seq2 _ => by simp [pvalEq]
  | .seq1 _, .scalar _ => by simp [pvalEq]
  | .seq1 _, .set _ => by simp [pvalEq]
  | .seq1 a, .seq1 b => by simp [pvalEq, pvalListEq_iff a b]
  | .seq1 _, .seq2 _ => by simp [pvalEq]
  | .seq2 _, .scalar _ => by simp [pvalEq]
  | .seq2 _, .set _ => by simp [pvalEq]
  | .seq2 _, .seq1 _ => by simp [pvalEq]
  | .seq2 a, .seq2 b => by simp [pvalEq, pvalListEq_iff a b]

theorem pvalListEq_iff : ∀ a b, pvalListEq a b = true ↔ a = b
  | [], [] => by simp [pvalListEq]
  | [], _ :: _ => by simp [pvalListEq]
  | _ :: _, [] => by simp [pvalListEq]
  | x :: xs, y :: ys => by
      simp [pvalListEq, pvalEq_iff x y, pvalListEq_iff xs ys]

end

instance : DecidableEq PValue := fun a b =>
  decidable_of_iff (pvalEq a b = true) (pvalEq_iff a b)

end Pyds

namespace Pyds

/-- `Date.MONTH_DAYS` from values.py. -/
def MONTH_DAYS : List Int := [0, 31, 28, 31, 30, 31, 30, 31, 31, 30, 31, 30, 31]

/-- The truthiness of the expression
`year % 4 and (year % 100 != 0 or year % 400 == 0)` in `Date.__init__`,
as the integer the later additions see: `year % 4` is an `int`, so the
`and` yields `0` when the year is divisible by four, and otherwise the
boolean value of the parenthesized test. -/
def leapTruthy (year : Int) : Int :=
  if year % 4 = 0 then 0
  else if year % 100 ≠ 0 ∨ year % 400 = 0 then 1 else 0

/-- `Date.__init__`, ported line by line (including its treatment of the
leap test and of `MONTH_DAYS[month] + (month == 3 and leap_year)`). -/
def dateInit (year : Int) (month : Option Int) (day : Int) :
    Except Err PDate := do
  let leapYear := leapTruthy year
  let maxDay ←
    match month with
    | none => pure (365 + leapYear)
    | some m =>
        if m < 1 ∨ m > 12 then
          throw (.valueError "month is not between 1 and 12")
        else
          pure ((MONTH_DAYS.getD m.toNat 0) +
            (if m = 3 then leapYear else 0))
  if day < 1 ∨ day > maxDay then
    throw (.valueError ("day is not between 1 and " ++ toString maxDay))
  pure ⟨year, month, day⟩

/-- `Time.__init__`, ported line by line.  Note the source quirk kept
here: when `utc` is false and `zone_hour` is `None`, a passed
`zone_minute` is stored without validation. -/
def timeInit (hour minute : Int) (second : Option PyRat := none)
    (utc : Bool := false) (zoneHour : Option Int := none)
    (zoneMinute : Option Int := none) : Except Err PTime := do
  if hour < 0 ∨ hour > 23 then
    throw (.valueError "hour is not between 0 and 23")
  if minute < 0 ∨ minute > 59 then
    throw (.valueError "minute is not between 0 and 59")
  match second with
  | none => pure ()
  | some s =>
      if s.ltInt 0 ∨ s.gtInt 59 then
        throw (.valueError "second is not between 0 and 59")
      else pure ()
  if ¬utc then
    match zoneHour with
    | none => pure ()
    | some zh =>
        if zh < -12 ∨ zh > 12 then
          throw (.valueError "zone hour is not between -12 and 12")
        else
          match zoneMinute with
          | none => pure ()
          | some zm =>
              if zm < 0 ∨ zm > 59 then
                throw (.valueError "zone minute is not between 0 and 59")
              else pure ()
  let zoneHour := if utc then none else zoneHour
  let zoneMinute := if utc then none else zoneMinute
  pure ⟨hour, minute, second, utc, zoneHour, zoneMinute⟩

/-- `DateTime.__init__`: a `Date` then a `Time`. -/
def dateTimeInit (year : Int) (month : Option Int) (day : Int)
    (hour minute : Int) (second : Option PyRat := none)
    (utc : Bool := false) (zoneHour : Option Int := none)
    (zoneMinute : Option Int := none) : Except Err PScalar := do
  let d ← dateInit year month day
  let t ← timeInit hour minute second utc zoneHour zoneMinute
  pure (.dateTime d t)

/-- `BasedInteger.__init__`: the radix bound check, then
`int(digits, radix)`, then the digits stored upper-cased. -/
def basedIntegerInit (radix : Int) (digits : String)
    (units : Option Units := none) : Except Err PScalar := do
  if radix < 2 ∨ radix > 16 then
    throw (.valueError "radix is not between 2 and 16")
  match pyIntBase digits radix with
  | none =>
      throw (.valueError ("invalid literal for int with base " ++
        toString radix))
  | some v => pure (.basedInteger radix (pyUpper digits) v units)

/-- `Text.__init__`. -/
def textInit (value : String) (validate : Bool := true) :
    Except Err PScalar :=
  if validate ∧ ¬textOk value then
    .error (.valueError ("invalid value " ++ value))
  else .ok (.text value)

/-- `Symbol.__init__`: validated when asked, stored upper-cased. -/
def symbolInit (value : String) (validate : Bool := true) :
    Except Err PScalar :=
  if validate ∧ ¬symbolOk value then
    .error (.valueError ("invalid value " ++ value))
  else .ok (.symbol (pyUpper value))

/-- `Identifier.__init__`: validated when asked, stored upper-cased. -/
def identifierInit (value : String) (validate : Bool := true) :
    Except Err PScalar :=
  if validate ∧ ¬identifierOk value then
    .error (.valueError ("invalid value " ++ value))
  else .ok (.identifier (pyUpper value))

/-- `Set.add`: only `Symbol` and `Integer` instances enter; a Python
set keeps one copy of equal elements. -/
def setAdd (elems : List PScalar) (value : PValue) :
    Except Err (List PScalar) :=
  match value with
  | .scalar s =>
      match s with
      | .symbol _ | .integer _ _ =>
          .ok (if elems.contains s then elems else elems ++ [s])
      | _ => .error (.typeError "value is not an instance of Symbol or Integer")
  | _ => .error (.typeError "value is not an instance of Symbol or Integer")

/-- `Set.__init__`: add every argument in order. -/
def setInit (values : List PValue) : Except Err PValue := do
  let elems ← values.foldlM setAdd []
  pure (.set elems)

/-- `Sequence1D.insert` restricted to the append position used by the
constructor and the parser: the element must be a `Scalar`. -/
def seq1Append (elems : List PValue) (value : PValue) :
    Except Err (List PValue) :=
  match value with
  | .scalar _ => .ok (elems ++ [value])
  | _ => .error (.typeError "value is not an instance of Scalar")

/-- `Sequence1D.__init__`. -/
def seq1Init (values : List PValue) : Except Err PValue := do
  let elems ← values.foldlM seq1Append []
  pure (.seq1 elems)

/-- `Sequence2D.insert` at the append position: the element must be a
`Sequence1D` instance, which a `Sequence2D` also is (subclassing). -/
def seq2Append (elems : List PValue) (value : PValue) :
    Except Err (List PValue) :=
  match value with
  | .seq1 _ | .seq2 _ => .ok (elems ++ [value])
  | _ => .error (.typeError "value is not an instance of Sequence1D")

/-- `Sequence2D.__init__`. -/
def seq2Init (values : List PValue) : Except Err PValue := do
  let elems ← values.foldlM seq2Append []
  pure (.seq2 elems)

end Pyds

namespace Pyds

/-- `str(float)` idealized for fractions with decimal denominators:
the plain decimal expansion (integers get a trailing `.0`).  Python
shortest-repr digit selection and its switch to exponent notation are
not modelled; no claim in this file depends on the serialization of a
`Real`. -/
def pyFloatStr (q : PyRat) : String :=
  if q.den = 1 then toString q.num ++ ".0"
  else
    match (List.range 40).find? (fun k => 10 ^ k % q.den = 0) with
    | some k =>
        let n : Int := q.num * ((10 ^ k / q.den : Nat) : Int)
        (if n < 0 then "-" else "") ++
          toString (n.natAbs / 10 ^ k) ++ "." ++ padZero k (n.natAbs % 10 ^ k)
    | none => toString q.num ++ "/" ++ toString q.den

/-- `" {}".format(units) if units else ""` in `Numeric.__str__` and
`BasedInteger.__str__`, with `Units.__str__` being `<expression>`. -/
def unitsStr : Option Units → String
  | none => ""
  | some u => " <" ++ u.expression ++ ">"

/-- `Date.__str__`. -/
def strDate (d : PDate) : String :=
  toString d.year ++ "-" ++
    (match d.month with
     | none => fmt02d d.day
     | some m => fmt02d m ++ "-" ++ fmt02d d.day)

/-- `Time.__str__`: the fractional second is printed with
`"{:015.12f}"` and stripped of trailing zeros and a trailing dot. -/
def strTime (t : PTime) : String :=
  let hms := fmt02d t.hour ++ ":" ++ fmt02d t.minute ++
    (match t.second with
     | none => ""
     | some s => ":" ++ rstrip '.' (rstrip '0' (fmt01512f s)))
  if t.utc then hms ++ "Z"
  else
    match t.zoneHour with
    | some zh =>
        hms ++ fmtPlus03d zh ++
          (match t.zoneMinute with
           | some zm => ":" ++ fmt02d zm
           | none => "")
    | none => hms

/-- The `__str__` of every scalar class of values.py. -/
def strScalar : PScalar → String
  | .integer v u => toString v ++ unitsStr u
  | .basedInteger r d _ u => toString r ++ "#" ++ d ++ "#" ++ unitsStr u
  | .real v u => pyFloatStr v ++ unitsStr u
  | .text v => "\"" ++ v ++ "\""
  | .symbol v => "\x27" ++ v ++ "\x27"
  | .identifier v => v
  | .date d => strDate d
  | .time t => strTime t
  | .dateTime d t => strDate d ++ "T" ++ strTime t

mutual

/-- `__str__` of the value containers: a `Set` prints its elements in
braces (always, even empty); `Sequence1D.__str__` (also inherited by
`Sequence2D`) raises `RuntimeError` on an empty sequence. -/
def strValue : PValue → Except Err String
  | .scalar s => .ok (strScalar s)
  | .set elems =>
      .ok ("\x7b" ++ String.intercalate ", " (elems.map strScalar) ++ "\x7d")
  | .seq1 elems =>
      if elems.length < 1 then
        .error (.runtimeError "sequence does not contain at least 1 value")
      else do
        let ss ← strValueList elems
        pure ("(" ++ String.intercalate ", " ss ++ ")")
  | .seq2 elems =>
      if elems.length < 1 then
        .error (.runtimeError "sequence does not contain at least 1 value")
      else do
        let ss ← strValueList elems
        pure ("(" ++ String.intercalate ", " ss ++ ")")

/-- Serialize each element of a sequence in order. -/
def strValueList : List PValue → Except Err (List String)
  | [] => .ok []
  | v :: vs => do
      let s ← strValue v
      let ss ← strValueList vs
      pure (s :: ss)

end

/-- The statement variants of statements.py.  A `group` carries its
`GroupStatements` body, an `object` its `ObjectStatements` body, both
as insertion-ordered lists. -/
inductive PStatement where
  | attribute (identifier : String) (value : PValue)
  | group (identifier : String) (body : List PStatement)
  | object (identifier : String) (body : List PStatement)
deriving Repr

/-- The stored (upper-cased) identifier of a statement. -/
def stmtId : PStatement → String
  | .attribute i _ => i
  | .group i _ => i
  | .object i _ => i

mutual

/-- Structural equality on `PStatement`. -/
def pstmtEq : PStatement → PStatement → Bool
  | .attribute i v, .attribute j w => i == j && v == w
  | .group i b, .group j c => i == j && pstmtListEq b c
  | .object i b, .object j c => i == j && pstmtListEq b c
  | _, _ => false

/-- Structural equality on statement lists. -/
def pstmtListEq : List PStatement → List PStatement → Bool
  | [], [] => true
  | a :: as_, b :: bs => pstmtEq a b && pstmtListEq as_ bs
  | _, _ => false

end

mutual

theorem pstmtEq_iff : ∀ a b, pstmtEq a b = true ↔ a = b
  | .attribute _ _, .attribute _ _ => by simp [pstmtEq]
  | .attribute _ _, .group _ _ => by simp [pstmtEq]
  | .attribute _ _, .object _ _ => by simp [pstmtEq]
  | .group _ _, .attribute _ _ => by simp [pstmtEq]
  | .group _ b, .group _ c => by simp [pstmtEq, pstmtListEq_iff b c]
  | .group _ _, .object _ _ => by simp [pstmtEq]
  | .object _ _, .attribute _ _ => by simp [pstmtEq]
  | .object _ _, .group _ _ => by simp [pstmtEq]
  | .object _ b, .object _ c => by simp [pstmtEq, pstmtListEq_iff b c]

theorem pstmtListEq_iff : ∀ a b, pstmtListEq a b = true ↔ a = b
  | [], [] => by simp [pstmtListEq]
  | [], _ :: _ => by simp [pstmtListEq]
  | _ :: _, [] => by simp [pstmtListEq]
  | x :: xs, y :: ys => by
      simp [pstmtListEq, pstmtEq_iff x y, pstmtListEq_iff xs ys]

end

instance : DecidableEq PStatement := fun a b =>
  decidable_of_iff (pstmtEq a b = true) (pstmtEq_iff a b)

end Pyds

namespace Pyds

/-- `Attribute.__init__`: the value must be a `Value` instance (our
`PValue` type guarantees that), the identifier is validated against
`Attribute._VALID_IDENT_RE` when asked, then stored upper-cased. -/
def attributeInit (identifier : String) (value : PValue)
    (validateIdentifier : Bool := true) : Except Err PStatement :=
  if validateIdentifier ∧ ¬attrIdentOk identifier then
    .error (.valueError ("invalid identifier " ++ identifier))
  else .ok (.attribute (pyUpper identifier) value)

/-- `Group.__init__`: the body must be a `GroupStatements` instance
(guaranteed by the call sites in this embedding), the identifier is
validated against `Statement._VALID_IDENT_RE` when asked, then stored
upper-cased. -/
def groupInit (identifier : String) (body : List PStatement)
    (validateIdentifier : Bool := true) : Except Err PStatement :=
  if validateIdentifier ∧ ¬identifierOk identifier then
    .error (.valueError ("invalid identifier " ++ identifier))
  else .ok (.group (pyUpper identifier) body)

/-- `Object.__init__`, analogous to `Group.__init__`. -/
def objectInit (identifier : String) (body : List PStatement)
    (validateIdentifier : Bool := true) : Except Err PStatement :=
  if validateIdentifier ∧ ¬identifierOk identifier then
    .error (.valueError ("invalid identifier " ++ identifier))
  else .ok (.object (pyUpper identifier) body)

/-- `Statements.__contains__`: key presence is looked up in the
identifier dictionary after upper-casing the key. -/
def containsId (l : List PStatement) (key : String) : Bool :=
  l.any (fun s => stmtId s == pyUpper key)

/-- Index normalization of `Statements._insert`:
`max(0, len+index) if index < 0 else min(len, index)`. -/
def clampIdx (len : Nat) (index : Int) : Nat :=
  if index < 0 then (max 0 ((len : Int) + index)).toNat
  else min len index.toNat

/-- Insertion at a clamped position, the effect of
`_DoubleLinkedNodes.insert_node`. -/
def insertAt {α : Type} : Nat → α → List α → List α
  | 0, a, l => a :: l
  | _ + 1, a, [] => [a]
  | n + 1, a, x :: xs => x :: insertAt n a xs

/-- `Statements.insert` (shared by `Label` and `ObjectStatements`):
the isinstance check is discharged by the type of `PStatement`; a
duplicate identifier (case-insensitively) is a `ValueError`, raised
before any mutation. -/
def stmtsInsert (index : Int) (st : PStatement) (l : List PStatement) :
    Except Err (List PStatement) :=
  if containsId l (stmtId st) then
    .error (.valueError ("statement with identifier " ++ stmtId st ++
      " already exists"))
  else .ok (insertAt (clampIdx l.length index) st l)

/-- `Statements.append` is `insert(len(self), statement)`. -/
def stmtsAppend (l : List PStatement) (st : PStatement) :
    Except Err (List PStatement) :=
  stmtsInsert (l.length : Int) st l

/-- `GroupStatements.insert`: only `Attribute` statements are
admitted (`TypeError` otherwise, checked before the duplicate
check). -/
def groupStmtsInsert (index : Int) (st : PStatement)
    (l : List PStatement) : Except Err (List PStatement) :=
  match st with
  | .attribute _ _ => stmtsInsert index st l
  | _ => .error (.typeError "statement is not an instance of Attribute")

/-- `GroupStatements.append` through the overridden insert. -/
def groupStmtsAppend (l : List PStatement) (st : PStatement) :
    Except Err (List PStatement) :=
  groupStmtsInsert (l.length : Int) st l

/-- The body of `Statements.pop` after index normalization. -/
def popAt (i : Int) (l : List PStatement) :
    Except Err (PStatement × List PStatement) :=
  if i ≥ (l.length : Int) ∨ i < 0 then
    .error (.indexError "index out of range")
  else
    match l.drop i.toNat with
    | st :: _ => .ok (st, l.take i.toNat ++ l.drop (i.toNat + 1))
    | [] => .error (.indexError "index out of range")

/-- `Statements.pop`: negative indices count from the end, and an
out-of-range index is an `IndexError`. -/
def stmtsPop (index : Int) (l : List PStatement) :
    Except Err (PStatement × List PStatement) :=
  popAt (if index < 0 then (l.length : Int) + index else index) l

/-- The three runtime types `Statements.__setitem__` dispatches on. -/
inductive SetItemValue where
  | value (v : PValue)
  | groupStatements (sts : List PStatement)
  | objectStatements (sts : List PStatement)
deriving DecidableEq

/-- Replace in place the (unique) statement holding the given stored
identifier: the effect of looking the node up in the identifier
dictionary and assigning its `value` slot. -/
def replaceById (ident : String) (stmt : PStatement) :
    List PStatement → Option (List PStatement)
  | [] => none
  | s :: rest =>
      if stmtId s == ident then some (stmt :: rest)
      else (replaceById ident stmt rest).map (fun r => s :: r)

/-- `Statements.__setitem__` (shared by `Label` and
`ObjectStatements`): build the statement flavor matching the runtime
type of the value (the `try`/`except TypeError` chain over
`Attribute`, `Group`, `Object`), then replace the node holding that
identifier in place, or append when the identifier is new. -/
def stmtsSetItem (key : String) (v : SetItemValue) (l : List PStatement) :
    Except Err (List PStatement) := do
  let stmt ←
    match v with
    | .value pv => attributeInit key pv
    | .groupStatements sts => groupInit key sts
    | .objectStatements sts => objectInit key sts
  match replaceById (stmtId stmt) stmt l with
  | some l2 => .ok l2
  | none => .ok (l ++ [stmt])

/-- `GroupStatements.__setitem__` as written in the source: its
definition line omits the `self` parameter
(`def __setitem__(key, value)`), so every call
`group_statements[key] = value` passes three positional arguments to a
two-parameter function and raises `TypeError` before anything else
runs. -/
def groupStmtsSetItem (_key : String) (_v : SetItemValue)
    (_l : List PStatement) : Except Err (List PStatement) :=
  .error (.typeError
    "__setitem__() takes 2 positional arguments but 3 were given")

/-- Remove the (unique) statement holding the given stored
identifier. -/
def removeById (ident : String) : List PStatement → Option (List PStatement)
  | [] => none
  | s :: rest =>
      if stmtId s == ident then some rest
      else (removeById ident rest).map (fun r => s :: r)

/-- `Statements.__delitem__`: remove the node the upper-cased key maps
to; a missing key is a `KeyError`. -/
def stmtsDelItem (key : String) (l : List PStatement) :
    Except Err (List PStatement) :=
  match removeById (pyUpper key) l with
  | some l2 => .ok l2
  | none => .error (.keyError key)

/-- `Statements._max_identifier_width` of `GroupStatements`:
`max(map(len, ids), default=0)`. -/
def maxIdWidthGroup (l : List PStatement) : Nat :=
  (l.map (fun s => (stmtId s).length)).foldr max 0

/-- `Statements._max_identifier_width` of `Label` and
`ObjectStatements`: at least 10. -/
def maxIdWidthLabel (l : List PStatement) : Nat :=
  max 10 (maxIdWidthGroup l)

mutual

/-- `Statement._format` of each statement flavor.  `width` is the
identifier padding width passed down by the container. -/
def stmtFormat : PStatement → String → Nat → Except Err String
  | .attribute i v, indent, width => do
      let vs ← strValue v
      pure (indent ++ padRight i width ++ " = " ++ vs)
  | .group i body, indent, width => do
      let subWidth := maxIdWidthGroup body
      let parts ← stmtFormatList body (indent ++ " ") subWidth
      pure (indent ++ padRight "GROUP" width ++ " = " ++ i ++
        (if body.length ≠ 0 then
          "\r\n" ++ String.intercalate "\r\n" parts ++ "\r\n"
         else "\r\n") ++
        indent ++ padRight "END_GROUP" width ++ " = " ++ i)
  | .object i body, indent, width => do
      let subWidth := maxIdWidthGroup body
      let parts ← stmtFormatList body (indent ++ " ") subWidth
      pure (indent ++ padRight "OBJECT" width ++ " = " ++ i ++
        (if body.length ≠ 0 then
          "\r\n" ++ String.intercalate "\r\n" parts ++ "\r\n"
         else "\r\n") ++
        indent ++ padRight "END_OBJECT" width ++ " = " ++ i)

/-- Format each nested statement in order. -/
def stmtFormatList : List PStatement → String → Nat → Except Err (List String)
  | [], _, _ => .ok []
  | st :: sts, indent, width => do
      let s ← stmtFormat st indent width
      let ss ← stmtFormatList sts indent width
      pure (s :: ss)

end

/-- `Statements.__str__`: CRLF-joined statements, identifiers padded to
the container width. -/
def strStatements (l : List PStatement) : Except Err String := do
  let parts ← stmtFormatList l "" (maxIdWidthLabel l)
  pure (String.intercalate "\r\n" parts)

/-- `Label.__str__`: the statements followed by the `END ` line. -/
def strLabel (l : List PStatement) : Except Err String := do
  let s ← strStatements l
  pure (s ++ "\r\nEND ")

end Pyds

namespace Pyds

/-- A lexical token: the `_Token` dict of parser.py.  `fields` holds
the token-name key (mapped to the whole matched text) followed by the
declared capture-group names of `ODL_LEX_TOK_SPEC`, each mapped to the
text its group captured, or `none` for a group that did not
participate in the match. -/
structure Token where
  name : String
  fields : List (String × Option String)
deriving DecidableEq, Repr

/-- Dictionary lookup `tok[key]`; an absent key yields `none` (the
parser only reads keys its token class declares). -/
def tokGet (t : Token) (key : String) : Option String :=
  match t.fields.lookup key with
  | some v => v
  | none => none

/-- The membership test `key in tok` used throughout the parser. -/
def hasKey (t : Token) (key : String) : Bool :=
  (t.fields.lookup key).isSome

/-- Pair the declared group names of a token with its regex captures.
`ODL_LEX_TOK_GROUPS_INDEX` maps the i-th declared name to the absolute
regex group `groupindex[token] + i`; a declared name beyond the
token's actual capture count (the `zone_minute` of `time` and
`date_time`) lands on a group belonging to the next token's pattern,
which never participates when this token matches, so its value is
`None`. -/
def mkFieldsAux : List String → List (Option String) →
    List (String × Option String)
  | [], _ => []
  | n :: ns, [] => (n, none) :: mkFieldsAux ns []
  | n :: ns, c :: cs => (n, c) :: mkFieldsAux ns cs

/-- Build a `_Token` from the token name, the whole matched text and
the capture list. -/
def mkToken (name : String) (whole : String) (names : List String)
    (caps : List (Option String)) : Token :=
  { name := name, fields := (name, some whole) :: mkFieldsAux names caps }

/-- The whitespace the lexer regex pads each token with:
`[ \t\v\f]*` (carriage return and line feed are not in the class). -/
def padWs (c : Char) : Bool :=
  c = ' ' || c = '\t' || c = '\x0b' || c = '\x0c'

/-- Vertical whitespace, the class `[\r\n\f\v]` of the comment
pattern. -/
def vertWs (c : Char) : Bool :=
  c = '\r' || c = '\n' || c = '\x0b' || c = '\x0c'

/-- The matched text: the input minus the returned rest (every matcher
consumes a prefix). -/
def consumedTxt (l rest : List Char) : String :=
  ⟨l.take (l.length - rest.length)⟩

/-- A non-empty run of decimal digits, greedily. -/
def digits1 (l : List Char) : Option (List Char × List Char) :=
  let t := l.takeWhile isDig
  if t = [] then none else some (t, l.dropWhile isDig)

/-- Split a comment line at the last `*/` it contains: the regex
`/\*([^\r\n\f\v]*)\*/` takes the capture greedily, so the capture runs
to the last closing marker on the line. -/
def lastClose : List Char → Option (List Char × List Char)
  | '*' :: '/' :: r =>
      (match lastClose r with
       | some (cap, rest) => some ('*' :: '/' :: cap, rest)
       | none => some ([], r))
  | c :: r =>
      (match lastClose r with
       | some (cap, rest) => some (c :: cap, rest)
       | none => none)
  | [] => none

/-- `comment`: `/\*([^\r\n\f\v]*)\*/.*?[\r\n\f\v]+`.  The lazy middle
takes the rest of the line, and the trailing class consumes the whole
newline run. -/
def matchComment (l : List Char) : Option (Token × List Char) :=
  match l with
  | c :: d :: r =>
      if c = '/' ∧ d = '*' then
        let line := r.takeWhile (fun x => ¬vertWs x)
        let afterLine := r.dropWhile (fun x => ¬vertWs x)
        match lastClose line with
        | some (cap, _) =>
            if afterLine = [] then none
            else
              let rest := afterLine.dropWhile vertWs
              some (mkToken "comment" (consumedTxt l rest) ["string"]
                [some ⟨cap⟩], rest)
        | none => none
      else none
  | _ => none

/-- The shared date pattern `([0-9]+)(?:[-]([0-9]+))?[-]([0-9]+)` with
its backtracking: the optional middle group is taken only when a third
digit run follows. -/
def matchDatePart (l : List Char) :
    Option (List Char × Option (List Char) × List Char × List Char) :=
  match digits1 l with
  | none => none
  | some (y, r1) =>
    match r1 with
    | '-' :: r2 =>
        (match digits1 r2 with
         | none => none
         | some (d1, r3) =>
           match r3 with
           | '-' :: r4 =>
               (match digits1 r4 with
                | some (d2, r5) => some (y, some d1, d2, r5)
                | none => some (y, none, d1, r3))
           | _ => some (y, none, d1, r3))
    | _ => none

/-- The seconds capture `[0-9]+(?:[.][0-9]*)?|[.][0-9]+`. -/
def matchSecondStr (l : List Char) : Option (List Char × List Char) :=
  match digits1 l with
  | some (ds, r) =>
      (match r with
       | '.' :: r2 =>
           some (ds ++ '.' :: r2.takeWhile isDig, r2.dropWhile isDig)
       | _ => some (ds, r))
  | none =>
      match l with
      | '.' :: r2 =>
          (match digits1 r2 with
           | some (fr, r3) => some ('.' :: fr, r3)
           | none => none)
      | _ => none

/-- The optional zone suffix `(?:(Z)|([+-][0-9]+)(?:[:][0-9]+)?)?`
(case-insensitive, so `z` also matches).  The zone-minute digits after
the colon are consumed by a non-capturing group: they are part of the
match but captured by nothing. -/
def matchZone (l : List Char) :
    Option String × Option String × List Char :=
  match l with
  | c :: r =>
      if c = 'Z' ∨ c = 'z' then (some ⟨[c]⟩, none, r)
      else if c = '+' ∨ c = '-' then
        match digits1 r with
        | some (ds, r2) =>
            let zh : Option String := some ⟨c :: ds⟩
            (match r2 with
             | ':' :: r3 =>
                 (match digits1 r3 with
                  | some (_, r4) => (none, zh, r4)
                  | none => (none, zh, r2))
             | _ => (none, zh, r2))
        | none => (none, none, c :: r)
      else (none, none, c :: r)
  | [] => (none, none, [])

/-- The shared time pattern
`([0-9]+)[:]([0-9]+)(?:[:](second))?(zone)?`. -/
def matchTimePart (l : List Char) :
    Option (List Char × List Char × Option String × Option String ×
      Option String × List Char) :=
  match digits1 l with
  | none => none
  | some (h, r1) =>
    match r1 with
    | ':' :: r2 =>
        (match digits1 r2 with
         | none => none
         | some (m, r3) =>
           let secRest : Option String × List Char :=
             match r3 with
             | ':' :: r5 =>
                 (match matchSecondStr r5 with
                  | some (sd, r6) => (some ⟨sd⟩, r6)
                  | none => (none, r3))
             | _ => (none, r3)
           let z := matchZone secRest.2
           some (h, m, secRest.1, z.1, z.2.1, z.2.2))
    | _ => none

/-- `date_time`: the date pattern, a literal `T` (case-insensitive),
then the time pattern.  Nine group names are declared but the pattern
has only eight captures, so `zone_minute` is always `None`. -/
def matchDateTime (l : List Char) : Option (Token × List Char) :=
  match matchDatePart l with
  | none => none
  | some (y, mo, d, r1) =>
    match r1 with
    | t :: r2 =>
        if t = 'T' ∨ t = 't' then
          match matchTimePart r2 with
          | none => none
          | some (h, mi, sec, utc, zh, r3) =>
              some (mkToken "date_time" (consumedTxt l r3)
                ["year", "month", "day", "hour", "minute", "second", "utc",
                 "zone_hour", "zone_minute"]
                [some ⟨y⟩, mo.map (fun x => (⟨x⟩ : String)), some ⟨d⟩,
                 some ⟨h⟩, some ⟨mi⟩, sec, utc, zh], r3)
        else none
    | [] => none

/-- `time`: six group names declared, five captures in the pattern, so
`zone_minute` is always `None`. -/
def matchTime (l : List Char) : Option (Token × List Char) :=
  match matchTimePart l with
  | none => none
  | some (h, mi, sec, utc, zh, r) =>
      some (mkToken "time" (consumedTxt l r)
        ["hour", "minute", "second", "utc", "zone_hour", "zone_minute"]
        [some ⟨h⟩, some ⟨mi⟩, sec, utc, zh], r)

/-- `date`. -/
def matchDate (l : List Char) : Option (Token × List Char) :=
  match matchDatePart l with
  | none => none
  | some (y, mo, d, r) =>
      some (mkToken "date" (consumedTxt l r) ["year", "month", "day"]
        [some ⟨y⟩, mo.map (fun x => (⟨x⟩ : String)), some ⟨d⟩], r)

/-- `based_integer`: `([0-9]+)[#]([+-]?[0-9a-zA-Z]+)[#]`. -/
def matchBased (l : List Char) : Option (Token × List Char) :=
  match digits1 l with
  | none => none
  | some (rad, r1) =>
    match r1 with
    | '#' :: r2 =>
        let sgnRest : List Char × List Char :=
          match r2 with
          | '+' :: rr => (['+'], rr)
          | '-' :: rr => (['-'], rr)
          | _ => ([], r2)
        let ds := sgnRest.2.takeWhile isAlnum
        if ds = [] then none
        else
          match sgnRest.2.dropWhile isAlnum with
          | '#' :: r4 =>
              some (mkToken "based_integer" (consumedTxt l r4)
                ["radix", "digits"]
                [some ⟨rad⟩, some ⟨sgnRest.1 ++ ds⟩], r4)
          | _ => none
    | _ => none

/-- The exponent suffix `[eE][+-]?[0-9]+` of the real pattern. -/
def expPart (l : List Char) : Option (List Char) :=
  match l with
  | e :: r =>
      if e = 'e' ∨ e = 'E' then
        match r with
        | '+' :: r2 => (digits1 r2).map (fun p => p.2)
        | '-' :: r2 => (digits1 r2).map (fun p => p.2)
        | _ => (digits1 r).map (fun p => p.2)
      else none
  | [] => none

/-- The unsigned real alternatives, in the pattern's order:
exponent form, then `[0-9]+[.][0-9]*`, then `[.][0-9]+`. -/
def matchRealCore (l : List Char) : Option (List Char) :=
  match digits1 l with
  | some (_, r1) =>
      (match r1 with
       | '.' :: r2 =>
           let r3 := r2.dropWhile isDig
           (match expPart r3 with
            | some r4 => some r4
            | none => some r3)
       | _ =>
           (match expPart r1 with
            | some r4 => some r4
            | none => none))
  | none =>
      match l with
      | c :: r2 => if c = '.' then (digits1 r2).map (fun p => p.2) else none
      | [] => none

/-- `real`, with its optional sign. -/
def matchReal (l : List Char) : Option (Token × List Char) :=
  let core := fun (r : List Char) =>
    (matchRealCore r).map (fun rest =>
      (mkToken "real" (consumedTxt l rest) [] [], rest))
  match l with
  | c :: r => if c = '+' ∨ c = '-' then core r else core (c :: r)
  | [] => core []

/-- `integer`: `[+-]?[0-9]+`. -/
def matchInteger (l : List Char) : Option (Token × List Char) :=
  let core := fun (r : List Char) =>
    (digits1 r).map (fun p =>
      (mkToken "integer" (consumedTxt l p.2) [] [], p.2))
  match l with
  | c :: r => if c = '+' ∨ c = '-' then core r else core (c :: r)
  | [] => core []

/-- `text`: `"([^"]*)"`; the body class matches any byte except the
double quote, newlines included. -/
def matchText (l : List Char) : Option (Token × List Char) :=
  match l with
  | c :: r =>
      if c = '"' then
        let body := r.takeWhile (fun x => x ≠ '"')
        match r.dropWhile (fun x => x ≠ '"') with
        | '"' :: r2 =>
            some (mkToken "text" (consumedTxt l r2) ["string"]
              [some ⟨body⟩], r2)
        | _ => none
      else none
  | [] => none

/-- The symbol body class `[^'\x00-\x1f\x7f]`. -/
def symChar (c : Char) : Bool :=
  ¬(c = '\x27' || c.toNat ≤ 31 || c.toNat = 127)

/-- `symbol`: `'([^'\x00-\x1f\x7f]+)'`. -/
def matchSymbol (l : List Char) : Option (Token × List Char) :=
  match l with
  | c :: r =>
      if c = '\x27' then
        let body := r.takeWhile symChar
        if body = [] then none
        else
          match r.dropWhile symChar with
          | '\x27' :: r2 =>
              some (mkToken "symbol" (consumedTxt l r2) ["string"]
                [some ⟨body⟩], r2)
          | _ => none
      else none
  | [] => none

/-- `identifier`: `[a-zA-Z](?:[_]?[0-9a-zA-Z])*`. -/
def matchIdentifier (l : List Char) : Option (Token × List Char) :=
  match l with
  | c :: r =>
      if isLet c then
        let p := identRestSpan r
        some (mkToken "identifier" ⟨c :: p.1⟩ [] [], p.2)
      else none
  | [] => none

/-- A single punctuation token. -/
def matchPunct (name : String) (c : Char) (l : List Char) :
    Option (Token × List Char) :=
  match l with
  | d :: r => if d = c then some (mkToken name ⟨[c]⟩ [] [], r) else none
  | [] => none

/-- `two_asterisk`: the literal `**`, listed before `asterisk`. -/
def matchTwoAsterisk (l : List Char) : Option (Token × List Char) :=
  match l with
  | c :: d :: r =>
      if c = '*' ∧ d = '*' then some (mkToken "two_asterisk" "**" [] [], r)
      else none
  | _ => none

/-- All token alternatives in the priority order of
`ODL_LEX_TOK_SPEC` (the order of the big alternation). -/
def matchers : List (List Char → Option (Token × List Char)) :=
  [matchComment, matchDateTime, matchTime, matchDate, matchBased,
   matchReal, matchInteger, matchText, matchSymbol, matchIdentifier,
   matchPunct "equal" '=', matchPunct "comma" ',', matchTwoAsterisk,
   matchPunct "asterisk" '*', matchPunct "slant" '/',
   matchPunct "circumflex" '^', matchPunct "open_bracket" '<',
   matchPunct "close_bracket" '>', matchPunct "open_paren" '(',
   matchPunct "close_paren" ')', matchPunct "open_brace" '\x7b',
   matchPunct "close_brace" '\x7d', matchPunct "colon" ':']

/-- First alternative that matches, as a regex alternation resolves. -/
def tryAlts : List (List Char → Option (Token × List Char)) →
    List Char → Option (Token × List Char)
  | [], _ => none
  | m :: ms, l =>
      match m l with
      | some r => some r
      | none => tryAlts ms l

/-- One match attempt at the current position: the optional
`[ \t\v\f]*` padding on both sides of the alternation. -/
def matchAt (l : List Char) : Option (Token × List Char) :=
  match tryAlts matchers (l.dropWhile padWs) with
  | some (tok, r) => some (tok, r.dropWhile padWs)
  | none => none

/-- `reserved_identifiers` of `_generate_tokens`. -/
def reservedMap : List (String × String) :=
  [("end", "end"), ("group", "begin_group"),
   ("begin_group", "begin_group"), ("end_group", "end_group"),
   ("object", "begin_object"), ("begin_object", "begin_object"),
   ("end_object", "end_object")]

/-- Reserved-word promotion: a raw identifier whose lower-case text is
reserved becomes a token of the reserved class whose only entry is the
raw text. -/
def promote (tok : Token) : Token :=
  if tok.name = "identifier" then
    match tokGet tok "identifier" with
    | some raw =>
        (match reservedMap.lookup (pyLower raw) with
         | some resName => { name := resName, fields := [(resName, some raw)] }
         | none => tok)
    | none => tok
  else tok

/-- The `finditer` loop of `_generate_tokens`: at each position try a
match; on failure skip one character silently (this is how both
unrecognized bytes and the CR/LF between statements are passed over —
no error of any kind is raised); on success emit the (possibly
promoted) token unless it is a comment.  Every successful match
consumes at least one character, so the input length bounds the number
of steps. -/
def tokenizeFuel : Nat → List Char → List Token
  | 0, _ => []
  | _ + 1, [] => []
  | fuel + 1, c :: rest =>
      match matchAt (c :: rest) with
      | none => tokenizeFuel fuel rest
      | some (tok, r) =>
          let tok := promote tok
          if tok.name = "comment" then tokenizeFuel fuel r
          else tok :: tokenizeFuel fuel r

/-- Tokenize a byte string. -/
def tokenize (s : String) : List Token := tokenizeFuel s.data.length s.data

end Pyds

namespace Pyds

/-- `next(tokens)`: the head of the stream, or the `StopIteration`
signal on exhaustion.  The one-slot `send` push-back of
`_generate_tokens` is modelled by consing the token back on. -/
def nextTok : List Token → Except Err (Token × List Token)
  | [] => .error .stopIteration
  | t :: ts => .ok (t, ts)

/-- `int()` applied to a token capture (a `TypeError` on `None`, a
`ValueError` on a malformed literal — neither arises from the
captures the token patterns produce). -/
def reqInt (o : Option String) : Except Err Int :=
  match o with
  | some s =>
      (match pyIntDec s with
       | some n => .ok n
       | none => .error (.valueError ("invalid literal for int: " ++ s)))
  | none => .error (.typeError "int argument is None")

/-- `int()` on an optional capture that is passed through when
`None`. -/
def optInt (o : Option String) : Except Err (Option Int) :=
  match o with
  | none => .ok none
  | some s => (reqInt (some s)).map some

/-- `float()` on an optional capture (the seconds field). -/
def optRat (o : Option String) : Except Err (Option PyRat) :=
  match o with
  | none => .ok none
  | some s =>
      (match pyFloat s with
       | some q => .ok (some q)
       | none => .error (.valueError ("could not convert string to float: " ++ s)))

/-- `float()` on a required capture (the real token text). -/
def reqRat (o : Option String) : Except Err PyRat :=
  match o with
  | some s =>
      (match pyFloat s with
       | some q => .ok q
       | none => .error (.valueError ("could not convert string to float: " ++ s)))
  | none => .error (.typeError "float argument is None")

/-- The collection loop of `_parse_units`: concatenate the raw text of
every token up to the closing `>` (no separators). -/
def unitsCollect : List Token → String → Except Err (String × List Token)
  | [], _ => .error .stopIteration
  | t :: ts, acc =>
      if hasKey t "close_bracket" then .ok (acc, ts)
      else unitsCollect ts (acc ++ (tokGet t t.name).getD "")

/-- `_parse_units`: speculatively read one token; on `<` collect and
validate a units expression, otherwise push the token back and return
no units.  Exhaustion propagates as `StopIteration` (this is a plain
function frame). -/
def parseUnits (ts : List Token) : Except Err (Option Units × List Token) := do
  let (tok1, ts1) ← nextTok ts
  if hasKey tok1 "open_bracket" then do
    let (txt, ts2) ← unitsCollect ts1 ""
    let u ← unitsInit txt
    pure (some u, ts2)
  else
    pure (none, tok1 :: ts1)

mutual

/-- `_parse_value`.  The fuel argument models the Python recursion
limit; every recursive call steps it down. -/
def parseValue : Nat → Token → List Token → Except Err (PValue × List Token)
  | 0, _, _ => .error .recursionLimit
  | fuel + 1, tok1, ts =>
    if hasKey tok1 "open_paren" then do
      let (tok2, ts1) ← nextTok ts
      if hasKey tok2 "open_paren" then do
        let (vals, ts2) ← collectSeqFirst fuel tok2 ts1
        let v ← seq2Init vals
        pure (v, ts2)
      else do
        let (vals, ts2) ← collectSeqFirst fuel tok2 ts1
        let v ← seq1Init vals
        pure (v, ts2)
    else if hasKey tok1 "open_brace" then do
      let (vals, ts2) ← collectSet fuel ts
      let v ← setInit vals
      pure (v, ts2)
    else if hasKey tok1 "identifier" then do
      let v ← identifierInit ((tokGet tok1 "identifier").getD "") false
      pure (.scalar v, ts)
    else if hasKey tok1 "symbol" then do
      let v ← symbolInit ((tokGet tok1 "string").getD "") false
      pure (.scalar v, ts)
    else if hasKey tok1 "text" then do
      let v ← textInit ((tokGet tok1 "string").getD "") false
      pure (.scalar v, ts)
    else if hasKey tok1 "date" then do
      let y ← reqInt (tokGet tok1 "year")
      let mo ← optInt (tokGet tok1 "month")
      let d ← reqInt (tokGet tok1 "day")
      let dt ← dateInit y mo d
      pure (.scalar (.date dt), ts)
    else if hasKey tok1 "time" then do
      let h ← reqInt (tokGet tok1 "hour")
      let m ← reqInt (tokGet tok1 "minute")
      let sec ← optRat (tokGet tok1 "second")
      let zh ← optInt (tokGet tok1 "zone_hour")
      let zm ← optInt (tokGet tok1 "zone_minute")
      let t ← timeInit h m sec (tokGet tok1 "utc").isSome zh zm
      pure (.scalar (.time t), ts)
    else if hasKey tok1 "date_time" then do
      let y ← reqInt (tokGet tok1 "year")
      let mo ← optInt (tokGet tok1 "month")
      let d ← reqInt (tokGet tok1 "day")
      let h ← reqInt (tokGet tok1 "hour")
      let m ← reqInt (tokGet tok1 "minute")
      let sec ← optRat (tokGet tok1 "second")
      let zh ← optInt (tokGet tok1 "zone_hour")
      let zm ← optInt (tokGet tok1 "zone_minute")
      let dt ← dateTimeInit y mo d h m sec (tokGet tok1 "utc").isSome zh zm
      pure (.scalar dt, ts)
    else if hasKey tok1 "integer" then do
      let (units, ts1) ← parseUnits ts
      let v ← reqInt (tokGet tok1 "integer")
      pure (.scalar (.integer v units), ts1)
    else if hasKey tok1 "based_integer" then do
      let (units, ts1) ← parseUnits ts
      let rad ← reqInt (tokGet tok1 "radix")
      let b ← basedIntegerInit rad ((tokGet tok1 "digits").getD "") units
      pure (.scalar b, ts1)
    else if hasKey tok1 "real" then do
      let (units, ts1) ← parseUnits ts
      let q ← reqRat (tokGet tok1 "real")
      pure (.scalar (.real q units), ts1)
    else
      .error (.parsingError "unexpected token")

/-- The element generator `gen_values` of the two sequence branches of
`_parse_value` (their code is identical): the first element, then
comma-separated elements up to the closing parenthesis.  Under the
pre-PEP-479 semantics this code targets, a `StopIteration` raised
inside the generator frame ends the generator silently with the
elements collected so far and the stream exhausted. -/
def collectSeqFirst : Nat → Token → List Token →
    Except Err (List PValue × List Token)
  | 0, _, _ => .error .recursionLimit
  | fuel + 1, first, ts =>
    match parseValue fuel first ts with
    | .error .stopIteration => .ok ([], [])
    | .error e => .error e
    | .ok (v, ts1) => collectSeqRest fuel [v] ts1

/-- The `while "close_paren" not in tok3` loop of the sequence
generator. -/
def collectSeqRest : Nat → List PValue → List Token →
    Except Err (List PValue × List Token)
  | 0, _, _ => .error .recursionLimit
  | fuel + 1, acc, ts =>
    match nextTok ts with
    | .error _ => .ok (acc, [])
    | .ok (tok3, ts1) =>
      if hasKey tok3 "close_paren" then .ok (acc, ts1)
      else if ¬hasKey tok3 "comma" then
        .error (.parsingError "expected comma")
      else
        match nextTok ts1 with
        | .error _ => .ok (acc, [])
        | .ok (tokE, ts2) =>
          match parseValue fuel tokE ts2 with
          | .error .stopIteration => .ok (acc, [])
          | .error e => .error e
          | .ok (v, ts3) => collectSeqRest fuel (acc ++ [v]) ts3

/-- The element generator of the set branch: possibly empty, then
comma-separated elements up to the closing brace. -/
def collectSet : Nat → List Token → Except Err (List PValue × List Token)
  | 0, _ => .error .recursionLimit
  | fuel + 1, ts =>
    match nextTok ts with
    | .error _ => .ok ([], [])
    | .ok (tok2, ts1) =>
      if hasKey tok2 "close_brace" then .ok ([], ts1)
      else
        match parseValue fuel tok2 ts1 with
        | .error .stopIteration => .ok ([], [])
        | .error e => .error e
        | .ok (v, ts2) => collectSetRest fuel [v] ts2

/-- The `while "close_brace" not in tok2` loop of the set
generator. -/
def collectSetRest : Nat → List PValue → List Token →
    Except Err (List PValue × List Token)
  | 0, _, _ => .error .recursionLimit
  | fuel + 1, acc, ts =>
    match nextTok ts with
    | .error _ => .ok (acc, [])
    | .ok (tok2, ts1) =>
      if hasKey tok2 "close_brace" then .ok (acc, ts1)
      else if ¬hasKey tok2 "comma" then
        .error (.parsingError "expected comma")
      else
        match nextTok ts1 with
        | .error _ => .ok (acc, [])
        | .ok (tokE, ts2) =>
          match parseValue fuel tokE ts2 with
          | .error .stopIteration => .ok (acc, [])
          | .error e => .error e
          | .ok (v, ts3) => collectSetRest fuel (acc ++ [v]) ts3

/-- `_parse_stmt`. -/
def parseStmt : Nat → Token → List Token →
    Except Err (PStatement × List Token)
  | 0, _, _ => .error .recursionLimit
  | fuel + 1, tok1, ts =>
    if hasKey tok1 "identifier" then do
      let (tok2, ts1) ← nextTok ts
      let (identifier, tok2, ts2) ←
        if hasKey tok2 "colon" then do
          let (tok3, ts2) ← nextTok ts1
          if ¬hasKey tok3 "identifier" then
            throw (.parsingError "expected namespace identifier")
          else do
            let ident := (tokGet tok1 "identifier").getD "" ++ ":" ++
              (tokGet tok3 "identifier").getD ""
            let (tok2b, ts3) ← nextTok ts2
            pure (ident, tok2b, ts3)
        else
          pure ((tokGet tok1 "identifier").getD "", tok2, ts1)
      if ¬hasKey tok2 "equal" then
        throw (.parsingError "expected equal sign")
      else do
        let (tokV, ts3) ← nextTok ts2
        let (value, ts4) ← parseValue fuel tokV ts3
        let st ← attributeInit identifier value false
        pure (st, ts4)
    else if hasKey tok1 "circumflex" then do
      let (tok2, ts1) ← nextTok ts
      if ¬hasKey tok2 "identifier" then
        throw (.parsingError "expected identifier")
      else do
        let (tok3, ts2) ← nextTok ts1
        if ¬hasKey tok3 "equal" then
          throw (.parsingError "expected equal sign")
        else do
          let identifier := "^" ++ (tokGet tok2 "identifier").getD ""
          let (tokV, ts3) ← nextTok ts2
          let (value, ts4) ← parseValue fuel tokV ts3
          let st ← attributeInit identifier value false
          pure (st, ts4)
    else if hasKey tok1 "begin_object" then do
      let (tok2, ts1) ← nextTok ts
      if ¬hasKey tok2 "equal" then
        throw (.parsingError "expected equal sign")
      else do
        let (tok3, ts2) ← nextTok ts1
        if ¬hasKey tok3 "identifier" then
          throw (.parsingError "expected object identifier")
        else do
          let identifier := (tokGet tok3 "identifier").getD ""
          let (body, ts3) ← objBody fuel [] ts2
          let (tok5, ts4) ← nextTok ts3
          let ts5 ←
            if hasKey tok5 "equal" then do
              let (tok6, ts5) ← nextTok ts4
              if ¬hasKey tok6 "identifier" then
                throw (.parsingError "expected object identifier")
              else if (tokGet tok6 "identifier").getD "" ≠ identifier then
                throw (.parsingError
                  "object identifier does not match end object identifier")
              else pure ts5
            else
              pure (tok5 :: ts4)
          let st ← objectInit identifier body false
          pure (st, ts5)
    else if hasKey tok1 "begin_group" then do
      let (tok2, ts1) ← nextTok ts
      if ¬hasKey tok2 "equal" then
        throw (.parsingError "expected equal sign")
      else do
        let (tok3, ts2) ← nextTok ts1
        if ¬hasKey tok3 "identifier" then
          throw (.parsingError "expected group identifier")
        else do
          let identifier := (tokGet tok3 "identifier").getD ""
          let (body, ts3) ← grpBody fuel [] ts2
          let (tok5, ts4) ← nextTok ts3
          let ts5 ←
            if hasKey tok5 "equal" then do
              let (tok6, ts5) ← nextTok ts4
              if ¬hasKey tok6 "identifier" then
                throw (.parsingError "expected group identifier")
              else if (tokGet tok6 "identifier").getD "" ≠ identifier then
                throw (.parsingError
                  "group identifier does not match end group identifier")
              else pure ts5
            else
              pure (tok5 :: ts4)
          let st ← groupInit identifier body false
          pure (st, ts5)
    else
      .error (.parsingError "unexpected token")

/-- The `while "end_object" not in tok4` body loop of the object
branch: each parsed statement is appended through
`ObjectStatements.append` (duplicate identifiers raise
`ValueError`). -/
def objBody : Nat → List PStatement → List Token →
    Except Err (List PStatement × List Token)
  | 0, _, _ => .error .recursionLimit
  | fuel + 1, acc, ts => do
    let (tok4, ts1) ← nextTok ts
    if hasKey tok4 "end_object" then pure (acc, ts1)
    else do
      let (st, ts2) ← parseStmt fuel tok4 ts1
      let acc2 ← stmtsAppend acc st
      objBody fuel acc2 ts2

/-- The body loop of the group branch: appends go through
`GroupStatements.append`, which rejects nested groups and objects
with `TypeError` and duplicate identifiers with `ValueError`. -/
def grpBody : Nat → List PStatement → List Token →
    Except Err (List PStatement × List Token)
  | 0, _, _ => .error .recursionLimit
  | fuel + 1, acc, ts => do
    let (tok4, ts1) ← nextTok ts
    if hasKey tok4 "end_group" then pure (acc, ts1)
    else do
      let (st, ts2) ← parseStmt fuel tok4 ts1
      let acc2 ← groupStmtsAppend acc st
      grpBody fuel acc2 ts2

/-- `_parse_label`: read tokens until `end`; each loop iteration runs
under `try ... except StopIteration`, which converts exhaustion —
whether from the direct `next` or from anywhere inside `_parse_stmt` —
into `ParsingError("unexpected end")`. -/
def parseLabelLoop : Nat → List PStatement → List Token →
    Except Err (List PStatement)
  | 0, _, _ => .error .recursionLimit
  | fuel + 1, acc, ts =>
    match nextTok ts with
    | .error _ => .error (.parsingError "unexpected end")
    | .ok (tok, ts1) =>
      if hasKey tok "end" then .ok acc
      else
        match parseStmt fuel tok ts1 with
        | .error .stopIteration => .error (.parsingError "unexpected end")
        | .error e => .error e
        | .ok (st, ts2) =>
          match stmtsAppend acc st with
          | .error e => .error e
          | .ok acc2 => parseLabelLoop fuel acc2 ts2

end

/-- `pyds.parser.parse`: tokenize the byte string and run the label
loop.  The fuel constant mirrors CPython's default recursion limit. -/
def parse (s : String) : Except Err (List PStatement) :=
  parseLabelLoop 1000 [] (tokenize s)

end Pyds

namespace Pyds

@[simp] theorem epBindOk {α β : Type} (x : α) (f : α → Except Err β) :
    ((Except.ok x : Except Err α) >>= f) = f x := rfl

@[simp] theorem epBindErr {α β : Type} (e : Err) (f : α → Except Err β) :
    ((Except.error e : Except Err α) >>= f) = .error e := rfl

@[simp] theorem epPure {α : Type} (x : α) :
    (pure x : Except Err α) = .ok x := rfl

@[simp] theorem epThrow {α : Type} (e : Err) :
    (throw e : Except Err α) = .error e := rfl

theorem strValueList_scalar_ok :
    ∀ l : List PValue, (∀ v ∈ l, ∃ s, v = PValue.scalar s) →
      ∃ ss, strValueList l = .ok ss := by
  intro l h
  induction l with
  | nil => exact ⟨[], rfl⟩
  | cons v vs ih =>
      obtain ⟨s, rfl⟩ := h v (by simp)
      obtain ⟨ss, hss⟩ := ih (fun w hw => h w (by simp [hw]))
      refine ⟨strScalar s :: ss, ?_⟩
      simp only [strValueList, strValue]
      rw [hss]
      rfl

/-- C2: the `Date` constructor never accepts February 29 — in any year
it rejects day 29 of month 2, because `year % 4 and (...)` is truthy
exactly when the year is NOT divisible by four and the leap day is
added to `MONTH_DAYS[3]` (March) rather than February; with
`month = None` it rejects day-of-year 366 for the true leap years 2000
and 2400 and instead accepts it for 2001 (and accepts March 32 in
1999).  This contradicts the claim (and the spec), which demand
Feb 29 / day 366 exactly in Gregorian leap years. -/
theorem c2_leap_year_divergence :
    (∀ y : Int, dateInit y (some 2) 29 =
        .error (.valueError "day is not between 1 and 28")) ∧
    dateInit 2000 (some 2) 29 =
      .error (.valueError "day is not between 1 and 28") ∧
    dateInit 2000 none 366 =
      .error (.valueError "day is not between 1 and 365") ∧
    dateInit 2400 none 366 =
      .error (.valueError "day is not between 1 and 365") ∧
    dateInit 1996 none 366 =
      .error (.valueError "day is not between 1 and 365") ∧
    dateInit 2001 none 366 = .ok ⟨2001, none, 366⟩ ∧
    dateInit 1999 (some 3) 32 = .ok ⟨1999, some 3, 32⟩ := by
  refine ⟨fun y => rfl, rfl, rfl, rfl, rfl, rfl, rfl⟩

/-- C9: an empty `Sequence1D` is constructed without complaint, but
serializing it raises `RuntimeError`; serialization succeeds for every
`Sequence1D` holding at least one element (its elements are always
`Scalar`s, which `Sequence1D.insert` guarantees). -/
theorem c9_empty_seq1_emit :
    seq1Init [] = .ok (.seq1 []) ∧
    strValue (.seq1 ([] : List PValue)) =
      .error (.runtimeError "sequence does not contain at least 1 value") ∧
    (∀ l : List PValue, l ≠ [] → (∀ v ∈ l, ∃ s, v = PValue.scalar s) →
      ∃ out, strValue (.seq1 l) = .ok out) := by
  refine ⟨rfl, rfl, fun l hne hs => ?_⟩
  obtain ⟨ss, hss⟩ := strValueList_scalar_ok l hs
  match l, hne with
  | v :: vs, _ =>
      exact ⟨"(" ++ String.intercalate ", " ss ++ ")",
        by simp [strValue, hss]⟩

/-- Witness for C9 at a singleton sequence. -/
theorem c9_empty_seq1_emit_witness :
    ∃ out, strValue (.seq1 [PValue.scalar (.integer 1 none)]) = .ok out :=
  c9_empty_seq1_emit.2.2 _ (by simp)
    (by intro v hv; simp at hv; exact ⟨_, hv⟩)

/-- C7: for `Label` and `ObjectStatements` (which share
`Statements.__setitem__`) setting by key builds the statement flavor
the value type dictates, replaces in place when the upper-cased
identifier exists (the other statements and the position untouched)
and appends otherwise.  For `GroupStatements` the claim fails: its
`__setitem__` is declared without `self`, so every set-by-key call on
a group container raises `TypeError` instead. -/
theorem c7_setitem_group_broken :
    (∀ key v l, groupStmtsSetItem key v l =
      .error (.typeError
        "__setitem__() takes 2 positional arguments but 3 were given")) ∧
    stmtsSetItem "b" (.value (.scalar (.integer 1 none)))
      [.attribute "A" (.scalar (.integer 5 none))] =
      .ok [.attribute "A" (.scalar (.integer 5 none)),
           .attribute "B" (.scalar (.integer 1 none))] ∧
    stmtsSetItem "a" (.value (.scalar (.integer 7 none)))
      [.attribute "A" (.scalar (.integer 5 none)),
       .attribute "B" (.scalar (.integer 1 none))] =
      .ok [.attribute "A" (.scalar (.integer 7 none)),
           .attribute "B" (.scalar (.integer 1 none))] ∧
    stmtsSetItem "g" (.groupStatements []) ([] : List PStatement) =
      .ok [.group "G" []] ∧
    stmtsSetItem "o" (.objectStatements []) ([] : List PStatement) =
      .ok [.object "O" []] := by
  refine ⟨fun key v l => rfl, by decide, by decide, by decide, by decide⟩

end Pyds

namespace Pyds

/-- The positional value of a digit string in a base: the canonical
integer a based literal denotes. -/
def baseVal (radix : Int) : List Char → Int
  | [] => 0
  | c :: cs => (digVal c : Int) * radix ^ cs.length + baseVal radix cs

theorem digitsFold_eq_baseVal (radix : Int) :
    ∀ (l : List Char) (acc : Int),
      digitsFold radix l acc = acc * radix ^ l.length + baseVal radix l := by
  intro l
  induction l with
  | nil => intro acc; simp [digitsFold, baseVal]
  | cons c cs ih =>
      intro acc
      simp only [digitsFold, baseVal, ih, List.length_cons]
      ring

theorem digVal_ne_sign {c : Char} {radix : Int} (hr : radix ≤ 16)
    (h : (digVal c : Int) < radix) : c ≠ '+' ∧ c ≠ '-' := by
  constructor
  · rintro rfl
    simp [digVal] at h
    omega
  · rintro rfl
    simp [digVal] at h
    omega

/-- On a digit string valid in the base, the base-prefix strip of
`int(s, base)` never fires: the prefix letters `b`, `o`, `x` are not
valid digits in their respective bases. -/
theorem stripBasePre_of_valid {radix : Int} (hr : radix ≤ 16)
    (l : List Char) (h : ∀ c ∈ l, (digVal c : Int) < radix) :
    stripBasePre radix l = l := by
  match l with
  | [] => rfl
  | [c] => rfl
  | c :: p :: rest =>
      have hp := h p (by simp)
      simp only [stripBasePre]
      rw [if_neg]
      rintro ⟨rfl, hcase⟩
      rcases hcase with ⟨hrad, rfl | rfl⟩ | ⟨hrad, rfl | rfl⟩ | ⟨hrad, rfl | rfl⟩ <;>
        subst hrad <;> simp [digVal] at hp

/-- C8: `BasedInteger` rejects every radix outside 2..16 with
`ValueError`; for a radix in range and a digit string valid in that
radix it stores the canonical positional value of the digits, keeps
the digits upper-cased, and serializes back to `radix#digits#`
followed by the optional units. -/
theorem c8_based_integer_fidelity :
    (∀ (radix : Int) (digits : String) (units : Option Units),
      radix < 2 ∨ radix > 16 →
      basedIntegerInit radix digits units =
        .error (.valueError "radix is not between 2 and 16")) ∧
    (∀ (radix : Int) (digits : String) (units : Option Units),
      2 ≤ radix → radix ≤ 16 → digits.data ≠ [] →
      (∀ c ∈ digits.data, (digVal c : Int) < radix) →
      basedIntegerInit radix digits units =
        .ok (.basedInteger radix (pyUpper digits)
          (baseVal radix digits.data) units) ∧
      strScalar (.basedInteger radix (pyUpper digits)
          (baseVal radix digits.data) units) =
        toString radix ++ "#" ++ pyUpper digits ++ "#" ++ unitsStr units) := by
  constructor
  · intro radix digits units hout
    simp [basedIntegerInit, hout]
  · intro radix digits units h2 h16 hne hdig
    have hnout : ¬(radix < 2 ∨ radix > 16) := by omega
    have hpy : pyIntBase digits radix = some (baseVal radix digits.data) := by
      match hd : digits.data, hne with
      | c :: rest, _ =>
          have hds : ∀ x ∈ c :: rest, (digVal x : Int) < radix := by
            rw [← hd]; exact hdig
          have hc := digVal_ne_sign h16 (hds c (by simp))
          simp only [pyIntBase, hd, if_neg hc.1, if_neg hc.2]
          simp only [pyIntBaseCore, stripBasePre_of_valid h16 _ hds]
          rw [if_pos]
          · rw [digitsFold_eq_baseVal]
            simp
          · refine ⟨by simp, ?_⟩
            simp only [List.all_eq_true, decide_eq_true_eq]
            exact hds
    constructor
    · simp only [basedIntegerInit, if_neg hnout, epPure, epBindOk]
      rw [hpy]
    · rfl

/-- Witness for C8 at the spec's own example `2#1010#`. -/
theorem c8_based_integer_fidelity_witness :
    basedIntegerInit 2 "1010" none =
      .ok (.basedInteger 2 "1010" 10 none) ∧
    strScalar (.basedInteger 2 "1010" 10 none) = "2#1010#" := by
  have h := c8_based_integer_fidelity.2 2 "1010" none (by decide) (by decide)
    (by decide) (by decide)
  have h1 : pyUpper "1010" = "1010" := rfl
  have h2 : baseVal 2 ("1010".data) = 10 := rfl
  rw [h1, h2] at h
  exact h

end Pyds

namespace Pyds

/-- C1: round-trip stability fails.  The label parsed from
`A = 12:34:0.0000000000001 END` is accepted, but its serialization
prints the fractional second with `"{:015.12f}"`, which rounds
1/10^13 to twelve fractional digits — zero — and strips the rest, so
the time re-parses with second 0 and the re-parsed tree differs from
the original in the seconds field.  (The input is chosen so that the
exact-rational idealization and IEEE-754 doubles behave
identically.) -/
theorem c1_roundtrip_counterexample :
    parse "A = 12:34:0.0000000000001 END" =
      .ok [.attribute "A" (.scalar (.time
        ⟨12, 34, some (⟨1, 10000000000000⟩ : PyRat), false, none, none⟩))] ∧
    strLabel [.attribute "A" (.scalar (.time
        ⟨12, 34, some (⟨1, 10000000000000⟩ : PyRat), false, none, none⟩))] =
      .ok "A          = 12:34:00\r\nEND " ∧
    parse "A          = 12:34:00\r\nEND " =
      .ok [.attribute "A" (.scalar (.time
        ⟨12, 34, some (⟨0, 1⟩ : PyRat), false, none, none⟩))] ∧
    ([.attribute "A" (.scalar (.time
        ⟨12, 34, some (⟨0, 1⟩ : PyRat), false, none, none⟩))] :
        List PStatement) ≠
      [.attribute "A" (.scalar (.time
        ⟨12, 34, some (⟨1, 10000000000000⟩ : PyRat), false, none, none⟩))] := by
  refine ⟨by decide, by decide, by decide, by decide⟩

end Pyds

namespace Pyds

/-- The characters that can begin some alternative of the lexer regex:
digits, letters, sign/dot (numerics), the two quotes, the comment and
slant slash, and the punctuation characters. -/
def canStartTok (c : Char) : Bool :=
  isDig c || isLet c ||
    (c = '+' || c = '-' || c = '.' || c = '"' || c = '\x27' || c = '/' ||
     c = '=' || c = ',' || c = '*' || c = '^' || c = '<' || c = '>' ||
     c = '(' || c = ')' || c = '\x7b' || c = '\x7d' || c = ':')

theorem tryAlts_unrecognized (c : Char) (s : List Char)
    (hcs : canStartTok c = false) :
    tryAlts matchers (c :: s) = none := by
  simp only [canStartTok, Bool.or_eq_false_iff, decide_eq_false_iff_not] at hcs
  obtain ⟨⟨hdig, hlet⟩, hrest⟩ := hcs
  obtain ⟨hrest, hcol⟩ := hrest
  obtain ⟨hrest, hcb⟩ := hrest
  obtain ⟨hrest, hob⟩ := hrest
  obtain ⟨hrest, hcp⟩ := hrest
  obtain ⟨hrest, hop⟩ := hrest
  obtain ⟨hrest, hgt⟩ := hrest
  obtain ⟨hrest, hlt⟩ := hrest
  obtain ⟨hrest, hcirc⟩ := hrest
  obtain ⟨hrest, hast⟩ := hrest
  obtain ⟨hrest, hcom⟩ := hrest
  obtain ⟨hrest, heq⟩ := hrest
  obtain ⟨hrest, hsl⟩ := hrest
  obtain ⟨hrest, hsq⟩ := hrest
  obtain ⟨hrest, hq⟩ := hrest
  obtain ⟨hrest, hdot⟩ := hrest
  obtain ⟨hp, hm⟩ := hrest
  have hdg : digits1 (c :: s) = none := by
    simp [digits1, List.takeWhile_cons, hdig]
  have hdp : matchDatePart (c :: s) = none := by simp [matchDatePart, hdg]
  have htp : matchTimePart (c :: s) = none := by simp [matchTimePart, hdg]
  have h1 : matchComment (c :: s) = none := by
    cases s with
    | nil => rfl
    | cons d r => simp [matchComment, hsl]
  have h2 : matchDateTime (c :: s) = none := by simp [matchDateTime, hdp]
  have h3 : matchTime (c :: s) = none := by simp [matchTime, htp]
  have h4 : matchDate (c :: s) = none := by simp [matchDate, hdp]
  have h5 : matchBased (c :: s) = none := by simp [matchBased, hdg]
  have hrc : matchRealCore (c :: s) = none := by
    simp [matchRealCore, hdg, hdot]
  have h6 : matchReal (c :: s) = none := by simp [matchReal, hp, hm, hrc]
  have h7 : matchInteger (c :: s) = none := by
    simp [matchInteger, hp, hm, hdg]
  have h8 : matchText (c :: s) = none := by simp [matchText, hq]
  have h9 : matchSymbol (c :: s) = none := by simp [matchSymbol, hsq]
  have h10 : matchIdentifier (c :: s) = none := by
    simp [matchIdentifier, hlet]
  have h11 : matchTwoAsterisk (c :: s) = none := by
    cases s with
    | nil => rfl
    | cons d r => simp [matchTwoAsterisk, hast]
  simp [matchers, tryAlts, h1, h2, h3, h4, h5, h6, h7, h8, h9, h10, h11,
    matchPunct, heq, hcom, hast, hsl, hcirc, hlt, hgt, hop, hcp, hob,
    hcb, hcol]

/-- C3 (counterexample): the input `A = 1 \x80 END` contains the byte
0x80, which starts no token, yet parsing succeeds and returns the
label as if the byte were absent — no lexical error (and no error of
any kind) is signalled. -/
theorem c3_no_lex_error_counterexample :
    parse "A = 1 \x80 END" =
      .ok [.attribute "A" (.scalar (.integer 1 none))] := by
  decide

/-- C3 (amended): a byte that is neither token-padding whitespace nor
a possible first byte of any token alternative is silently skipped by
the `finditer` loop: tokenizing with it present equals tokenizing the
remainder.  This is by design load-bearing — CR and LF themselves are
skipped this way. -/
theorem c3_unrecognized_byte_skipped :
    ∀ (fuel : Nat) (c : Char) (s : List Char),
      padWs c = false → canStartTok c = false →
      tokenizeFuel (fuel + 1) (c :: s) = tokenizeFuel fuel s := by
  intro fuel c s hws hcs
  have hta := tryAlts_unrecognized c s hcs
  have hmA : matchAt (c :: s) = none := by
    simp [matchAt, List.dropWhile_cons, hws, hta]
  simp [tokenizeFuel, hmA]

/-- Witness for the amended C3 at the byte 0x80 before `END`. -/
theorem c3_unrecognized_byte_skipped_witness :
    tokenizeFuel 4 ['\x80', 'E', 'N', 'D'] = tokenizeFuel 3 ['E', 'N', 'D'] :=
  c3_unrecognized_byte_skipped 3 '\x80' ['E', 'N', 'D'] (by decide) (by decide)

end Pyds

namespace Pyds

/-- Does an outcome surface the raw stream-exhaustion signal? -/
def isStopErr {α : Type} : Except Err α → Bool
  | .error .stopIteration => true
  | _ => false

theorem stmtsAppend_no_stop (l : List PStatement) (st : PStatement) :
    isStopErr (stmtsAppend l st) = false := by
  simp only [stmtsAppend, stmtsInsert]
  split <;> rfl

theorem parseLabelLoop_never_stop :
    ∀ (fuel : Nat) (acc : List PStatement) (ts : List Token),
      isStopErr (parseLabelLoop fuel acc ts) = false := by
  intro fuel
  induction fuel with
  | zero => intro acc ts; rfl
  | succ fuel ih =>
      intro acc ts
      cases ts with
      | nil => rfl
      | cons t ts1 =>
          simp only [parseLabelLoop, nextTok]
          split
          · rfl
          · split
            · rfl
            · rename_i e heq hne
              cases e <;> first | rfl | exact absurd rfl heq
            · rename_i st ts2 heq
              split
              · rename_i e2 hap
                have hs := stmtsAppend_no_stop acc st
                rw [hap] at hs
                exact hs
              · rename_i acc2 hap
                exact ih acc2 ts2

/-- C4: a token stream that ends before the label is complete makes
`parse` raise `ParsingError` and nothing else.  The stream-exhaustion
signal (`StopIteration`) never escapes the label loop — under the
pre-PEP-479 generator semantics of this code's vintage it either
bubbles through plain frames into the `try` of `_parse_label`, or ends
an element generator silently and the loop then exhausts the stream at
the top level; both surface as `ParsingError("unexpected end")`.  The
concrete cases exercise exhaustion at the label level, inside a
statement, a sequence, a set and a units expression. -/
theorem c4_premature_end_is_parsing_error :
    (∀ (fuel : Nat) (acc : List PStatement) (ts : List Token),
      isStopErr (parseLabelLoop fuel acc ts) = false) ∧
    (∀ (fuel : Nat) (acc : List PStatement),
      parseLabelLoop (fuel + 1) acc [] =
        .error (.parsingError "unexpected end")) ∧
    parse "A =" = .error (.parsingError "unexpected end") ∧
    parse "A = (1," = .error (.parsingError "unexpected end") ∧
    parse "A = \x7b1," = .error (.parsingError "unexpected end") ∧
    parse "A = 1 <" = .error (.parsingError "unexpected end") ∧
    parse "GROUP = A" = .error (.parsingError "unexpected end") := by
  refine ⟨parseLabelLoop_never_stop, fun fuel acc => rfl,
    by decide, by decide, by decide, by decide, by decide⟩

end Pyds

namespace Pyds

/-- The three statement-container flavors. -/
inductive ContKind where
  | label
  | grp
  | obj
deriving DecidableEq, Repr

/-- Dispatch `insert` to the flavor's method (`GroupStatements`
overrides it, `Label` and `ObjectStatements` inherit the base). -/
def contInsert : ContKind → Int → PStatement → List PStatement →
    Except Err (List PStatement)
  | .grp, i, st, l => groupStmtsInsert i st l
  | _, i, st, l => stmtsInsert i st l

/-- Dispatch set-by-key to the flavor's method. -/
def contSetItem : ContKind → String → SetItemValue → List PStatement →
    Except Err (List PStatement)
  | .grp, k, v, l => groupStmtsSetItem k v l
  | _, k, v, l => stmtsSetItem k v l

/-- What holds of every `Statement` object by construction:
`Statement.__init__` stores `identifier.upper()` unconditionally. -/
def StmtOk (st : PStatement) : Prop := pyUpper (stmtId st) = stmtId st

/-- The container states reachable from the empty container by any
sequence of the public mutating operations: `insert` (hence also
`append`, which is `insert(len, ...)`), `pop`, set-by-key and
del-by-key.  Errors leave the container unchanged — in the source each
method raises before touching the linked list, and in this model an
erroneous call simply yields no new state. -/
inductive Reach (k : ContKind) : List PStatement → Prop where
  | empty : Reach k []
  | ofInsert {l l2 : List PStatement} {i : Int} {st : PStatement} :
      Reach k l → StmtOk st → contInsert k i st l = .ok l2 → Reach k l2
  | ofPop {l : List PStatement} {i : Int} {st : PStatement}
      {l2 : List PStatement} :
      Reach k l → stmtsPop i l = .ok (st, l2) → Reach k l2
  | ofSetItem {l l2 : List PStatement} {key : String} {v : SetItemValue} :
      Reach k l → contSetItem k key v l = .ok l2 → Reach k l2
  | ofDelItem {l l2 : List PStatement} {key : String} :
      Reach k l → stmtsDelItem key l = .ok l2 → Reach k l2

theorem mem_insertAt {α : Type} (b a : α) :
    ∀ (n : Nat) (l : List α), b ∈ insertAt n a l ↔ b = a ∨ b ∈ l := by
  intro n
  induction n with
  | zero => intro l; simp [insertAt]
  | succ n ih =>
      intro l
      cases l with
      | nil => simp [insertAt]
      | cons x xs => simp [insertAt, ih xs]; tauto

theorem map_insertAt {α β : Type} (f : α → β) (a : α) :
    ∀ (n : Nat) (l : List α),
      (insertAt n a l).map f = insertAt n (f a) (l.map f) := by
  intro n
  induction n with
  | zero => intro l; simp [insertAt]
  | succ n ih =>
      intro l
      cases l with
      | nil => simp [insertAt]
      | cons x xs => simp [insertAt, ih xs]

theorem nodup_insertAt {α : Type} [DecidableEq α] (a : α) :
    ∀ (n : Nat) (l : List α), a ∉ l → l.Nodup → (insertAt n a l).Nodup := by
  intro n
  induction n with
  | zero => intro l hm hn; simpa [insertAt] using ⟨hm, hn⟩
  | succ n ih =>
      intro l hm hn
      cases l with
      | nil => simp [insertAt]
      | cons x xs =>
          simp only [List.mem_cons, not_or] at hm
          simp only [List.nodup_cons] at hn
          simp only [insertAt, List.nodup_cons]
          constructor
          · rw [mem_insertAt]
            rintro (rfl | hx)
            · exact hm.1 rfl
            · exact hn.1 hx
          · exact ih xs hm.2 hn.2

theorem popSublist {α : Type} :
    ∀ (l : List α) (n : Nat), (l.take n ++ l.drop (n + 1)).Sublist l := by
  intro l
  induction l with
  | nil => intro n; simp
  | cons x xs ih =>
      intro n
      cases n with
      | zero => simp
      | succ n =>
          simpa [List.take, List.drop] using (ih n).cons₂ x

theorem replaceById_map {ident : String} {stmt : PStatement}
    (hid : stmtId stmt = ident) :
    ∀ {l l2 : List PStatement}, replaceById ident stmt l = some l2 →
      l2.map stmtId = l.map stmtId := by
  intro l
  induction l with
  | nil => intro l2 h; exact Option.noConfusion h
  | cons s rest ih =>
      intro l2 h
      simp only [replaceById] at h
      by_cases hs : stmtId s == ident
      · rw [if_pos hs] at h
        cases h
        simp only [List.map_cons]
        rw [hid]
        rw [show stmtId s = ident from by simpa using hs]
      · rw [if_neg hs] at h
        cases hr : replaceById ident stmt rest with
        | none => rw [hr] at h; exact Option.noConfusion h
        | some r =>
            rw [hr] at h
            rw [show ((some r).map fun x => s :: x) = some (s :: r) from rfl] at h
            cases h
            simp [ih hr]

theorem replaceById_mem {ident : String} {stmt : PStatement} :
    ∀ {l l2 : List PStatement}, replaceById ident stmt l = some l2 →
      ∀ s ∈ l2, s = stmt ∨ s ∈ l := by
  intro l
  induction l with
  | nil => intro l2 h; exact Option.noConfusion h
  | cons s rest ih =>
      intro l2 h
      simp only [replaceById] at h
      by_cases hs : stmtId s == ident
      · rw [if_pos hs] at h
        cases h
        intro x hx
        rcases List.mem_cons.mp hx with rfl | hx
        · exact Or.inl rfl
        · exact Or.inr (List.mem_cons_of_mem _ hx)
      · rw [if_neg hs] at h
        cases hr : replaceById ident stmt rest with
        | none => rw [hr] at h; exact Option.noConfusion h
        | some r =>
            rw [hr] at h
            rw [show ((some r).map fun x => s :: x) = some (s :: r) from rfl] at h
            cases h
            intro x hx
            rcases List.mem_cons.mp hx with rfl | hx
            · exact Or.inr (List.mem_cons_self _ _)
            · rcases ih hr x hx with h1 | h1
              · exact Or.inl h1
              · exact Or.inr (List.mem_cons_of_mem _ h1)

theorem replaceById_none {ident : String} {stmt : PStatement} :
    ∀ {l : List PStatement}, replaceById ident stmt l = none →
      ∀ s ∈ l, stmtId s ≠ ident := by
  intro l
  induction l with
  | nil => intro _ s hs; simp at hs
  | cons x rest ih =>
      intro h s hs
      simp only [replaceById] at h
      by_cases hx : stmtId x == ident
      · rw [if_pos hx] at h; simp at h
      · rw [if_neg hx] at h
        rcases List.mem_cons.mp hs with rfl | hs
        · simpa using hx
        · cases hr : replaceById ident stmt rest with
          | none => exact ih hr s hs
          | some r => rw [hr] at h; exact Option.noConfusion h

theorem removeById_sublist {ident : String} :
    ∀ {l l2 : List PStatement}, removeById ident l = some l2 →
      l2.Sublist l := by
  intro l
  induction l with
  | nil => intro l2 h; exact Option.noConfusion h
  | cons s rest ih =>
      intro l2 h
      simp only [removeById] at h
      by_cases hs : stmtId s == ident
      · rw [if_pos hs] at h
        cases h
        exact List.sublist_cons_self s rest
      · rw [if_neg hs] at h
        cases hr : removeById ident rest with
        | none => rw [hr] at h; exact Option.noConfusion h
        | some r =>
            rw [hr] at h
            rw [show ((some r).map fun x => s :: x) = some (s :: r) from rfl] at h
            cases h
            exact (ih hr).cons₂ s

end Pyds

namespace Pyds

/-- Did the call succeed? -/
def epOk {α : Type} : Except Err α → Bool
  | .ok _ => true
  | .error _ => false

theorem attributeInit_ok {key : String} {pv : PValue} {vflag : Bool}
    {st : PStatement} (h : attributeInit key pv vflag = .ok st) :
    st = .attribute (pyUpper key) pv := by
  unfold attributeInit at h
  split at h
  · exact Except.noConfusion h
  · cases h; rfl

theorem groupInit_ok {key : String} {b : List PStatement} {vflag : Bool}
    {st : PStatement} (h : groupInit key b vflag = .ok st) :
    st = .group (pyUpper key) b := by
  unfold groupInit at h
  split at h
  · exact Except.noConfusion h
  · cases h; rfl

theorem objectInit_ok {key : String} {b : List PStatement} {vflag : Bool}
    {st : PStatement} (h : objectInit key b vflag = .ok st) :
    st = .object (pyUpper key) b := by
  unfold objectInit at h
  split at h
  · exact Except.noConfusion h
  · cases h; rfl

theorem stmtsInsert_ok {i : Int} {st : PStatement} {l l2 : List PStatement}
    (h : stmtsInsert i st l = .ok l2) :
    containsId l (stmtId st) = false ∧
      l2 = insertAt (clampIdx l.length i) st l := by
  unfold stmtsInsert at h
  by_cases hc : containsId l (stmtId st)
  · rw [if_pos hc] at h
    exact Except.noConfusion h
  · rw [if_neg hc] at h
    cases h
    exact ⟨by simpa using hc, rfl⟩

theorem popAt_ok {i : Int} {st : PStatement} {l l2 : List PStatement}
    (h : popAt i l = .ok (st, l2)) : l2.Sublist l := by
  unfold popAt at h
  split at h
  · exact Except.noConfusion h
  · split at h
    · cases h
      exact popSublist l _
    · exact Except.noConfusion h

theorem stmtsPop_ok {i : Int} {st : PStatement} {l l2 : List PStatement}
    (h : stmtsPop i l = .ok (st, l2)) : l2.Sublist l := by
  unfold stmtsPop at h
  exact popAt_ok h

theorem stmtsSetItem_ok {key : String} {v : SetItemValue}
    {l l2 : List PStatement} (h : stmtsSetItem key v l = .ok l2) :
    ∃ stmt, StmtOk stmt ∧
      (replaceById (stmtId stmt) stmt l = some l2 ∨
       (l2 = l ++ [stmt] ∧ ∀ s ∈ l, stmtId s ≠ stmtId stmt)) := by
  have main : ∀ (stmt : PStatement), StmtOk stmt →
      (match replaceById (stmtId stmt) stmt l with
       | some r => (Except.ok r : Except Err (List PStatement))
       | none => Except.ok (l ++ [stmt])) = Except.ok l2 →
      ∃ stmt2, StmtOk stmt2 ∧
        (replaceById (stmtId stmt2) stmt2 l = some l2 ∨
         (l2 = l ++ [stmt2] ∧ ∀ s ∈ l, stmtId s ≠ stmtId stmt2)) := by
    intro stmt hok hm
    cases hrep : replaceById (stmtId stmt) stmt l with
    | some r =>
        rw [hrep] at hm
        cases hm
        exact ⟨stmt, hok, Or.inl hrep⟩
    | none =>
        rw [hrep] at hm
        cases hm
        exact ⟨stmt, hok, Or.inr ⟨rfl, replaceById_none hrep⟩⟩
  rcases v with pv | sts | sts
  all_goals unfold stmtsSetItem at h
  all_goals dsimp only at h
  · rcases hinit : attributeInit key pv with e | stmt
    · rw [hinit] at h
      exact Except.noConfusion h
    · rw [hinit] at h
      have hst := attributeInit_ok hinit
      subst hst
      exact main _ (by simp [StmtOk, stmtId, pyUpper_idem]) h
  · rcases hinit : groupInit key sts with e | stmt
    · rw [hinit] at h
      exact Except.noConfusion h
    · rw [hinit] at h
      have hst := groupInit_ok hinit
      subst hst
      exact main _ (by simp [StmtOk, stmtId, pyUpper_idem]) h
  · rcases hinit : objectInit key sts with e | stmt
    · rw [hinit] at h
      exact Except.noConfusion h
    · rw [hinit] at h
      have hst := objectInit_ok hinit
      subst hst
      exact main _ (by simp [StmtOk, stmtId, pyUpper_idem]) h

end Pyds

namespace Pyds

/-- Is the statement an `Attribute` instance? -/
def isAttr : PStatement → Bool
  | .attribute _ _ => true
  | _ => false

theorem stmtsDelItem_ok {key : String} {l l2 : List PStatement}
    (h : stmtsDelItem key l = .ok l2) : l2.Sublist l := by
  unfold stmtsDelItem at h
  cases hr : removeById (pyUpper key) l with
  | some r =>
      rw [hr] at h
      cases h
      exact removeById_sublist hr
  | none =>
      rw [hr] at h
      exact Except.noConfusion h

theorem groupStmtsInsert_ok {i : Int} {st : PStatement}
    {l l2 : List PStatement} (h : groupStmtsInsert i st l = .ok l2) :
    isAttr st = true ∧ stmtsInsert i st l = .ok l2 := by
  unfold groupStmtsInsert at h
  rcases st with ⟨a, b⟩ | ⟨a, b⟩ | ⟨a, b⟩
  · exact ⟨rfl, h⟩
  · exact Except.noConfusion h
  · exact Except.noConfusion h

theorem reach_inv :
    ∀ (k : ContKind) (l : List PStatement), Reach k l →
      ((l.map stmtId).Nodup ∧ ∀ st ∈ l, StmtOk st) ∧
      (k = .grp → ∀ st ∈ l, isAttr st = true) := by
  intro k l hr
  induction hr with
  | empty => exact ⟨⟨List.nodup_nil, by simp⟩, by simp⟩
  | ofInsert hr hok hins ih =>
      rename_i l l2 i st
      have hbase : isAttr st = true ∨ k ≠ .grp := by
        cases k with
        | grp => exact Or.inl (groupStmtsInsert_ok hins).1
        | label => exact Or.inr (by simp)
        | obj => exact Or.inr (by simp)
      have hins2 : stmtsInsert i st l = .ok l2 := by
        cases k with
        | grp => exact (groupStmtsInsert_ok hins).2
        | label => exact hins
        | obj => exact hins
      obtain ⟨hcontains, hl2⟩ := stmtsInsert_ok hins2
      subst hl2
      constructor
      · constructor
        · rw [map_insertAt]
          apply nodup_insertAt
          · intro hmem
            obtain ⟨s, hs, hid⟩ := List.mem_map.mp hmem
            have : (stmtId s == pyUpper (stmtId st)) = true := by
              rw [hok]
              simpa using hid
            have hany : l.any (fun s => stmtId s == pyUpper (stmtId st)) :=
              List.any_eq_true.mpr ⟨s, hs, this⟩
            rw [show containsId l (stmtId st) =
              l.any (fun s => stmtId s == pyUpper (stmtId st)) from rfl]
              at hcontains
            rw [hany] at hcontains
            exact Bool.noConfusion hcontains
          · exact ih.1.1
        · intro s hs
          rcases (mem_insertAt s st _ l).mp hs with rfl | hs
          · exact hok
          · exact ih.1.2 s hs
      · intro hk s hs
        rcases (mem_insertAt s st _ l).mp hs with rfl | hs
        · rcases hbase with hb | hb
          · exact hb
          · exact absurd hk hb
        · exact ih.2 hk s hs
  | ofPop hr hpop ih =>
      have hsub := stmtsPop_ok hpop
      refine ⟨⟨ih.1.1.sublist (hsub.map stmtId), ?_⟩, ?_⟩
      · intro s hs
        exact ih.1.2 s (hsub.mem hs)
      · intro hk s hs
        exact ih.2 hk s (hsub.mem hs)
  | ofSetItem hr hset ih =>
      rename_i l l2 key v
      cases k with
      | grp => exact Except.noConfusion hset
      | label =>
          obtain ⟨stmt, hok, hcase⟩ := stmtsSetItem_ok hset
          rcases hcase with hrep | ⟨rfl, hfresh⟩
          · refine ⟨⟨?_, ?_⟩, by simp⟩
            · rw [replaceById_map rfl hrep]
              exact ih.1.1
            · intro s hs
              rcases replaceById_mem hrep s hs with rfl | hs
              · exact hok
              · exact ih.1.2 s hs
          · refine ⟨⟨?_, ?_⟩, by simp⟩
            · rw [List.map_append]
              rw [List.nodup_append]
              refine ⟨ih.1.1, by simp, ?_⟩
              intro x hx
              obtain ⟨s, hs, rfl⟩ := List.mem_map.mp hx
              simp only [List.map_cons, List.map_nil, List.mem_singleton]
              intro hcontra
              exact hfresh s hs hcontra
            · intro s hs
              rcases List.mem_append.mp hs with hs | hs
              · exact ih.1.2 s hs
              · rw [List.mem_singleton.mp hs]
                exact hok
      | obj =>
          obtain ⟨stmt, hok, hcase⟩ := stmtsSetItem_ok hset
          rcases hcase with hrep | ⟨rfl, hfresh⟩
          · refine ⟨⟨?_, ?_⟩, by simp⟩
            · rw [replaceById_map rfl hrep]
              exact ih.1.1
            · intro s hs
              rcases replaceById_mem hrep s hs with rfl | hs
              · exact hok
              · exact ih.1.2 s hs
          · refine ⟨⟨?_, ?_⟩, by simp⟩
            · rw [List.map_append]
              rw [List.nodup_append]
              refine ⟨ih.1.1, by simp, ?_⟩
              intro x hx
              obtain ⟨s, hs, rfl⟩ := List.mem_map.mp hx
              simp only [List.map_cons, List.map_nil, List.mem_singleton]
              intro hcontra
              exact hfresh s hs hcontra
            · intro s hs
              rcases List.mem_append.mp hs with hs | hs
              · exact ih.1.2 s hs
              · rw [List.mem_singleton.mp hs]
                exact hok
  | ofDelItem hr hdel ih =>
      have hsub := stmtsDelItem_ok hdel
      refine ⟨⟨ih.1.1.sublist (hsub.map stmtId), ?_⟩, ?_⟩
      · intro s hs
        exact ih.1.2 s (hsub.mem hs)
      · intro hk s hs
        exact ih.2 hk s (hsub.mem hs)

end Pyds

namespace Pyds

/-- C5: every container state reachable by any sequence of operations
(insert, append, pop, set-by-key, del-by-key) on any flavor has
pairwise distinct stored identifiers — which are stored upper-cased,
so uniqueness is case-insensitive — and inserting (hence appending) a
statement whose identifier already occurs fails with `ValueError`
without producing a new state (the source raises before touching the
linked list). -/
theorem c5_identifier_uniqueness :
    (∀ (k : ContKind) (l : List PStatement), Reach k l →
      (l.map stmtId).Nodup ∧ ∀ st ∈ l, pyUpper (stmtId st) = stmtId st) ∧
    (∀ (i : Int) (st : PStatement) (l : List PStatement),
      containsId l (stmtId st) = true →
      stmtsInsert i st l = .error (.valueError
        ("statement with identifier " ++ stmtId st ++ " already exists"))) ∧
    (∀ (k : ContKind) (i : Int) (st : PStatement) (l : List PStatement),
      containsId l (stmtId st) = true →
      epOk (contInsert k i st l) = false) := by
  refine ⟨fun k l hr => (reach_inv k l hr).1, ?_, ?_⟩
  · intro i st l hc
    simp [stmtsInsert, hc]
  · intro k i st l hc
    have hbase : stmtsInsert i st l = .error (.valueError
        ("statement with identifier " ++ stmtId st ++ " already exists")) := by
      simp [stmtsInsert, hc]
    cases k with
    | grp =>
        rcases st with ⟨a, b⟩ | ⟨a, b⟩ | ⟨a, b⟩
        · show epOk (groupStmtsInsert i (.attribute a b) l) = false
          unfold groupStmtsInsert
          rw [show (match PStatement.attribute a b with
            | PStatement.attribute _ _ =>
                stmtsInsert i (PStatement.attribute a b) l
            | _ => (Except.error (.typeError
                "statement is not an instance of Attribute") :
                  Except Err (List PStatement))) =
              stmtsInsert i (PStatement.attribute a b) l from rfl]
          rw [hbase]
          rfl
        · rfl
        · rfl
    | label =>
        show epOk (stmtsInsert i st l) = false
        rw [hbase]
        rfl
    | obj =>
        show epOk (stmtsInsert i st l) = false
        rw [hbase]
        rfl

/-- Witness for C5: a one-insert reachable state is duplicate-free,
and a second insert with the same identifier fails. -/
theorem c5_identifier_uniqueness_witness :
    (([PStatement.attribute "A" (.scalar (.integer 5 none))].map
        stmtId).Nodup) ∧
    stmtsInsert 1 (.attribute "A" (.scalar (.integer 6 none)))
        [.attribute "A" (.scalar (.integer 5 none))] =
      .error (.valueError "statement with identifier A already exists") := by
  constructor
  · have hok : StmtOk
        (PStatement.attribute "A" (.scalar (.integer 5 none))) := rfl
    have hins : contInsert ContKind.label 0
        (PStatement.attribute "A" (.scalar (.integer 5 none))) [] =
        .ok [PStatement.attribute "A" (.scalar (.integer 5 none))] := by decide
    have hr : Reach ContKind.label
        [PStatement.attribute "A" (.scalar (.integer 5 none))] :=
      Reach.ofInsert Reach.empty hok hins
    exact (c5_identifier_uniqueness.1 ContKind.label _ hr).1
  · exact c5_identifier_uniqueness.2.1 1
      (.attribute "A" (.scalar (.integer 6 none))) _ (by decide)

end Pyds

namespace Pyds

theorem tryAlts_mem :
    ∀ (ms : List (List Char → Option (Token × List Char))) (l : List Char)
      (x : Token × List Char),
      tryAlts ms l = some x → ∃ m ∈ ms, m l = some x := by
  intro ms
  induction ms with
  | nil => intro l x h; exact Option.noConfusion h
  | cons m ms ih =>
      intro l x h
      simp only [tryAlts] at h
      cases hm : m l with
      | some y =>
          rw [hm] at h
          cases h
          exact ⟨m, by simp, hm⟩
      | none =>
          rw [hm] at h
          obtain ⟨m2, hmem, hm2⟩ := ih l x h
          exact ⟨m2, by simp [hmem], hm2⟩

theorem lookup_val_mem {α : Type} [BEq α] {β : Type} :
    ∀ (es : List (α × β)) (k : α) (v : β),
      es.lookup k = some v → v ∈ es.map Prod.snd := by
  intro es
  induction es with
  | nil => intro k v h; exact Option.noConfusion h
  | cons e es ih =>
      intro k v h
      simp only [List.lookup] at h
      cases hbe : (k == e.1) with
      | true =>
          rw [hbe] at h
          cases h
          simp
      | false =>
          rw [hbe] at h
          simp [ih _ _ h]

theorem promote_zm (tok : Token)
    (h : tokGet tok "zone_minute" = none) :
    tokGet (promote tok) "zone_minute" = none := by
  unfold promote
  by_cases hn : tok.name = "identifier"
  · rw [if_pos hn]
    cases hraw : tokGet tok "identifier" with
    | none => exact h
    | some raw =>
        cases hres : reservedMap.lookup (pyLower raw) with
        | none =>
            show tokGet (match reservedMap.lookup (pyLower raw) with
              | some resName =>
                  ({ name := resName, fields := [(resName, some raw)] } : Token)
              | none => tok) "zone_minute" = none
            rw [hres]
            exact h
        | some resName =>
            show tokGet (match reservedMap.lookup (pyLower raw) with
              | some resName =>
                  ({ name := resName, fields := [(resName, some raw)] } : Token)
              | none => tok) "zone_minute" = none
            rw [hres]
            have hv := lookup_val_mem _ _ _ hres
            simp only [reservedMap, List.map_cons, List.map_nil,
              List.mem_cons, List.not_mem_nil, or_false] at hv
            rcases hv with rfl | rfl | rfl | rfl | rfl | rfl | rfl <;> rfl
  · rw [if_neg hn]
    exact h

end Pyds


namespace Pyds

theorem matchComment_zm (l : List Char) (tok : Token) (r : List Char)
    (h : matchComment l = some (tok, r)) : tokGet tok "zone_minute" = none := by
  unfold matchComment at h
  repeat' first
    | split at h
    | dsimp only [] at h
  all_goals first
    | exact Option.noConfusion h
    | (cases h; rfl)

theorem matchDateTime_zm (l : List Char) (tok : Token) (r : List Char)
    (h : matchDateTime l = some (tok, r)) : tokGet tok "zone_minute" = none := by
  unfold matchDateTime at h
  repeat' first
    | split at h
    | dsimp only [] at h
  all_goals first
    | exact Option.noConfusion h
    | (cases h; rfl)

theorem matchTime_zm (l : List Char) (tok : Token) (r : List Char)
    (h : matchTime l = some (tok, r)) : tokGet tok "zone_minute" = none := by
  unfold matchTime at h
  repeat' first
    | split at h
    | dsimp only [] at h
  all_goals first
    | exact Option.noConfusion h
    | (cases h; rfl)

theorem matchDate_zm (l : List Char) (tok : Token) (r : List Char)
    (h : matchDate l = some (tok, r)) : tokGet tok "zone_minute" = none := by
  unfold matchDate at h
  repeat' first
    | split at h
    | dsimp only [] at h
  all_goals first
    | exact Option.noConfusion h
    | (cases h; rfl)

theorem matchBased_zm (l : List Char) (tok : Token) (r : List Char)
    (h : matchBased l = some (tok, r)) : tokGet tok "zone_minute" = none := by
  unfold matchBased at h
  repeat' first
    | split at h
    | dsimp only [] at h
  all_goals first
    | exact Option.noConfusion h
    | (cases h; rfl)

theorem matchReal_zm (l : List Char) (tok : Token) (r : List Char)
    (h : matchReal l = some (tok, r)) : tokGet tok "zone_minute" = none := by
  unfold matchReal at h
  repeat' first
    | split at h
    | dsimp only [] at h
  all_goals first
    | exact Option.noConfusion h
    | (rw [Option.map_eq_some'] at h; obtain ⟨x, hx, h⟩ := h; cases h; rfl)

theorem matchInteger_zm (l : List Char) (tok : Token) (r : List Char)
    (h : matchInteger l = some (tok, r)) : tokGet tok "zone_minute" = none := by
  unfold matchInteger at h
  repeat' first
    | split at h
    | dsimp only [] at h
  all_goals first
    | exact Option.noConfusion h
    | (rw [Option.map_eq_some'] at h; obtain ⟨x, hx, h⟩ := h; cases h; rfl)

theorem matchText_zm (l : List Char) (tok : Token) (r : List Char)
    (h : matchText l = some (tok, r)) : tokGet tok "zone_minute" = none := by
  unfold matchText at h
  repeat' first
    | split at h
    | dsimp only [] at h
  all_goals first
    | exact Option.noConfusion h
    | (cases h; rfl)

theorem matchSymbol_zm (l : List Char) (tok : Token) (r : List Char)
    (h : matchSymbol l = some (tok, r)) : tokGet tok "zone_minute" = none := by
  unfold matchSymbol at h
  repeat' first
    | split at h
    | dsimp only [] at h
  all_goals first
    | exact Option.noConfusion h
    | (cases h; rfl)

theorem matchIdentifier_zm (l : List Char) (tok : Token) (r : List Char)
    (h : matchIdentifier l = some (tok, r)) : tokGet tok "zone_minute" = none := by
  unfold matchIdentifier at h
  repeat' first
    | split at h
    | dsimp only [] at h
  all_goals first
    | exact Option.noConfusion h
    | (cases h; rfl)

theorem matchPunct_zm (name : String) (c : Char)
    (hn : ("zone_minute" == name) = false)
    (l : List Char) (tok : Token) (r : List Char)
    (h : matchPunct name c l = some (tok, r)) :
    tokGet tok "zone_minute" = none := by
  unfold matchPunct at h
  repeat' first
    | split at h
    | dsimp only [] at h
  all_goals first
    | exact Option.noConfusion h
    | (cases h; simp [tokGet, mkToken, mkFieldsAux, List.lookup, hn])

theorem matchTwoAsterisk_zm (l : List Char) (tok : Token) (r : List Char)
    (h : matchTwoAsterisk l = some (tok, r)) :
    tokGet tok "zone_minute" = none := by
  unfold matchTwoAsterisk at h
  repeat' first
    | split at h
    | dsimp only [] at h
  all_goals first
    | exact Option.noConfusion h
    | (cases h; rfl)

theorem matchAt_zm (l : List Char) (tok : Token) (r : List Char)
    (h : matchAt l = some (tok, r)) : tokGet tok "zone_minute" = none := by
  unfold matchAt at h
  cases htry : tryAlts matchers (l.dropWhile padWs) with
  | none => rw [htry] at h; exact Option.noConfusion h
  | some x =>
      rw [htry] at h
      obtain ⟨tok0, r0⟩ := x
      cases h
      obtain ⟨m, hmem, hm⟩ := tryAlts_mem _ _ _ htry
      simp only [matchers, List.mem_cons, List.not_mem_nil, or_false] at hmem
      rcases hmem with rfl | rfl | rfl | rfl | rfl | rfl | rfl | rfl | rfl |
        rfl | rfl | rfl | rfl | rfl | rfl | rfl | rfl | rfl | rfl | rfl |
        rfl | rfl | rfl
      · exact matchComment_zm _ _ _ hm
      · exact matchDateTime_zm _ _ _ hm
      · exact matchTime_zm _ _ _ hm
      · exact matchDate_zm _ _ _ hm
      · exact matchBased_zm _ _ _ hm
      · exact matchReal_zm _ _ _ hm
      · exact matchInteger_zm _ _ _ hm
      · exact matchText_zm _ _ _ hm
      · exact matchSymbol_zm _ _ _ hm
      · exact matchIdentifier_zm _ _ _ hm
      · exact matchPunct_zm _ _ (by decide) _ _ _ hm
      · exact matchPunct_zm _ _ (by decide) _ _ _ hm
      · exact matchTwoAsterisk_zm _ _ _ hm
      · exact matchPunct_zm _ _ (by decide) _ _ _ hm
      · exact matchPunct_zm _ _ (by decide) _ _ _ hm
      · exact matchPunct_zm _ _ (by decide) _ _ _ hm
      · exact matchPunct_zm _ _ (by decide) _ _ _ hm
      · exact matchPunct_zm _ _ (by decide) _ _ _ hm
      · exact matchPunct_zm _ _ (by decide) _ _ _ hm
      · exact matchPunct_zm _ _ (by decide) _ _ _ hm
      · exact matchPunct_zm _ _ (by decide) _ _ _ hm
      · exact matchPunct_zm _ _ (by decide) _ _ _ hm
      · exact matchPunct_zm _ _ (by decide) _ _ _ hm

/-- Every token the tokenizer produces carries `zone_minute = None`:
for `time` and `date_time` the declared group name maps past the
pattern\x27s actual captures, and every other token class has no such
key at all. -/
theorem tokenizeFuel_zm :
    ∀ (fuel : Nat) (l : List Char) (t : Token),
      t ∈ tokenizeFuel fuel l → tokGet t "zone_minute" = none := by
  intro fuel
  induction fuel with
  | zero => intro l t ht; simp [tokenizeFuel] at ht
  | succ fuel ih =>
      intro l t ht
      cases l with
      | nil => simp [tokenizeFuel] at ht
      | cons c rest =>
          simp only [tokenizeFuel] at ht
          cases hm : matchAt (c :: rest) with
          | none =>
              rw [hm] at ht
              exact ih rest t ht
          | some x =>
              rw [hm] at ht
              obtain ⟨tok, r⟩ := x
              simp only at ht
              by_cases hc : (promote tok).name = "comment"
              · rw [if_pos hc] at ht
                exact ih r t ht
              · rw [if_neg hc] at ht
                rcases List.mem_cons.mp ht with rfl | ht
                · exact promote_zm tok (matchAt_zm _ _ _ hm)
                · exact ih r t ht

end Pyds

namespace Pyds

/-- No scalar carries a zone-minute: `Time` and `DateTime` values
store `zone_minute = None`. -/
def scalarZM : PScalar → Bool
  | .time t => t.zoneMinute == none
  | .dateTime _ t => t.zoneMinute == none
  | _ => true

mutual

/-- Every `Time`/`DateTime` inside the value tree has
`zone_minute = None`. -/
def valueZM : PValue → Bool
  | .scalar s => scalarZM s
  | .set es => es.all scalarZM
  | .seq1 es => valueListZM es
  | .seq2 es => valueListZM es

/-- `valueZM` on every element. -/
def valueListZM : List PValue → Bool
  | [] => true
  | v :: vs => valueZM v && valueListZM vs

end

mutual

/-- Every `Time`/`DateTime` inside the statement tree has
`zone_minute = None`. -/
def stmtZM : PStatement → Bool
  | .attribute _ v => valueZM v
  | .group _ b => stmtListZM b
  | .object _ b => stmtListZM b

/-- `stmtZM` on every element. -/
def stmtListZM : List PStatement → Bool
  | [] => true
  | s :: ss => stmtZM s && stmtListZM ss

end

/-- Every statement of the list is an `Attribute`. -/
def stmtListAttr (l : List PStatement) : Bool := l.all isAttr

mutual

/-- Group purity through the statement tree: every `Group` body,
at any nesting depth, holds only `Attribute` statements. -/
def stmtPure : PStatement → Bool
  | .attribute _ _ => true
  | .group _ b => stmtListAttr b
  | .object _ b => stmtListPure b

/-- `stmtPure` on every element. -/
def stmtListPure : List PStatement → Bool
  | [] => true
  | s :: ss => stmtPure s && stmtListPure ss

end

/-- Every token of the stream carries `zone_minute = None`. -/
def TokListZM (ts : List Token) : Prop :=
  ∀ t ∈ ts, tokGet t "zone_minute" = none

theorem valueListZM_iff (l : List PValue) :
    valueListZM l = true ↔ ∀ v ∈ l, valueZM v = true := by
  induction l with
  | nil => simp [valueListZM]
  | cons v vs ih => simp [valueListZM, ih]

theorem stmtListZM_iff (l : List PStatement) :
    stmtListZM l = true ↔ ∀ s ∈ l, stmtZM s = true := by
  induction l with
  | nil => simp [stmtListZM]
  | cons s ss ih => simp [stmtListZM, ih]

theorem stmtListPure_iff (l : List PStatement) :
    stmtListPure l = true ↔ ∀ s ∈ l, stmtPure s = true := by
  induction l with
  | nil => simp [stmtListPure]
  | cons s ss ih => simp [stmtListPure, ih]

theorem stmtListAttr_iff (l : List PStatement) :
    stmtListAttr l = true ↔ ∀ s ∈ l, isAttr s = true := by
  simp [stmtListAttr, List.all_eq_true]

theorem foldlM_except_mem {α β : Type} (Q : α → β → Prop)
    (f : List β → α → Except Err (List β))
    (hf : ∀ acc a r, f acc a = .ok r → ∀ x ∈ r, x ∈ acc ∨ Q a x) :
    ∀ (vals : List α) (acc r : List β),
      List.foldlM f acc vals = .ok r → ∀ x ∈ r, x ∈ acc ∨ ∃ a ∈ vals, Q a x := by
  intro vals
  induction vals with
  | nil =>
      intro acc r h x hx
      simp only [List.foldlM_nil] at h
      cases h
      exact .inl hx
  | cons a as ih =>
      intro acc r h x hx
      simp only [List.foldlM_cons] at h
      cases hfa : f acc a with
      | error e => rw [hfa] at h; exact Except.noConfusion h
      | ok acc2 =>
          rw [hfa] at h
          simp only [epBindOk] at h
          rcases ih acc2 r h x hx with hin | ⟨b, hb, hq⟩
          · rcases hf acc a acc2 hfa x hin with h1 | h2
            · exact .inl h1
            · exact .inr ⟨a, by simp, h2⟩
          · exact .inr ⟨b, by simp [hb], hq⟩

theorem seq1Init_mem {vals : List PValue} {v : PValue}
    (h : seq1Init vals = .ok v) :
    ∃ elems, v = .seq1 elems ∧ ∀ x ∈ elems, x ∈ vals := by
  unfold seq1Init at h
  cases hf : List.foldlM seq1Append [] vals with
  | error e => rw [hf] at h; exact Except.noConfusion h
  | ok elems =>
      rw [hf] at h
      simp only [epBindOk, epPure] at h
      cases h
      refine ⟨elems, rfl, fun x hx => ?_⟩
      have := foldlM_except_mem (fun a x => x = a) seq1Append
        (by
          intro acc a r hr x hx
          unfold seq1Append at hr
          repeat' split at hr
          all_goals try exact Except.noConfusion hr
          all_goals cases hr
          all_goals (rcases List.mem_append.mp hx with h1 | h1 <;> revert h1)
          all_goals intro h1
          all_goals first
            | exact Or.inl h1
            | exact Or.inr (by simpa using h1))
        vals [] elems hf x hx
      rcases this with h1 | ⟨a, ha, rfl⟩
      · simp at h1
      · exact ha

theorem seq2Init_mem {vals : List PValue} {v : PValue}
    (h : seq2Init vals = .ok v) :
    ∃ elems, v = .seq2 elems ∧ ∀ x ∈ elems, x ∈ vals := by
  unfold seq2Init at h
  cases hf : List.foldlM seq2Append [] vals with
  | error e => rw [hf] at h; exact Except.noConfusion h
  | ok elems =>
      rw [hf] at h
      simp only [epBindOk, epPure] at h
      cases h
      refine ⟨elems, rfl, fun x hx => ?_⟩
      have := foldlM_except_mem (fun a x => x = a) seq2Append
        (by
          intro acc a r hr x hx
          unfold seq2Append at hr
          repeat' split at hr
          all_goals try exact Except.noConfusion hr
          all_goals cases hr
          all_goals (rcases List.mem_append.mp hx with h1 | h1 <;> revert h1)
          all_goals intro h1
          all_goals first
            | exact Or.inl h1
            | exact Or.inr (by simpa using h1))
        vals [] elems hf x hx
      rcases this with h1 | ⟨a, ha, rfl⟩
      · simp at h1
      · exact ha

theorem setInit_mem {vals : List PValue} {v : PValue}
    (h : setInit vals = .ok v) :
    ∃ elems, v = .set elems ∧ ∀ s ∈ elems, PValue.scalar s ∈ vals := by
  unfold setInit at h
  cases hf : List.foldlM setAdd [] vals with
  | error e => rw [hf] at h; exact Except.noConfusion h
  | ok elems =>
      rw [hf] at h
      simp only [epBindOk, epPure] at h
      cases h
      refine ⟨elems, rfl, fun s hs => ?_⟩
      have := foldlM_except_mem (fun a x => PValue.scalar x = a) setAdd
        (by
          intro acc a r hr x hx
          unfold setAdd at hr
          repeat' split at hr
          all_goals try exact Except.noConfusion hr
          all_goals cases hr
          all_goals try exact Or.inl hx
          all_goals (rcases List.mem_append.mp hx with h1 | h1 <;> revert h1)
          all_goals intro h1
          all_goals first
            | exact Or.inl h1
            | exact Or.inr (by simp at h1; rw [h1]))
        vals [] elems hf s hs
      rcases this with h1 | ⟨a, ha, hq⟩
      · simp at h1
      · rw [hq]; exact ha

end Pyds

namespace Pyds

theorem timeInit_zm {hr mi : Int} {sec : Option PyRat} {u : Bool}
    {zh : Option Int} {t : PTime}
    (h : timeInit hr mi sec u zh none = .ok t) : t.zoneMinute = none := by
  unfold timeInit at h
  repeat' first
    | split at h
    | (dsimp only [] at h)
    | (simp only [epBindOk, epBindErr, epPure, epThrow] at h)
  all_goals first
    | exact Except.noConfusion h
    | (cases h; rfl)

theorem dateTimeInit_zm {y : Int} {mo : Option Int} {d hr mi : Int}
    {sec : Option PyRat} {u : Bool} {zh : Option Int} {sc : PScalar}
    (h : dateTimeInit y mo d hr mi sec u zh none = .ok sc) :
    scalarZM sc = true := by
  unfold dateTimeInit at h
  cases hd : dateInit y mo d with
  | error e => rw [hd] at h; exact Except.noConfusion h
  | ok dd =>
      rw [hd] at h
      simp only [epBindOk] at h
      cases ht : timeInit hr mi sec u zh none with
      | error e =>
          rw [ht] at h
          simp only [epBindErr] at h
          exact Except.noConfusion h
      | ok t =>
          rw [ht] at h
          simp only [epBindOk, epPure] at h
          cases h
          simp [scalarZM, timeInit_zm ht]

theorem nextTok_zm {ts : List Token} {t : Token} {ts1 : List Token}
    (h : nextTok ts = .ok (t, ts1)) (hz : TokListZM ts) :
    tokGet t "zone_minute" = none ∧ TokListZM ts1 := by
  cases ts with
  | nil => exact Except.noConfusion h
  | cons a as =>
      cases h
      exact ⟨hz t (by simp), fun x hx => hz x (by simp [hx])⟩

theorem unitsCollect_zm :
    ∀ (ts : List Token) (acc txt : String) (ts1 : List Token),
      unitsCollect ts acc = .ok (txt, ts1) → TokListZM ts → TokListZM ts1 := by
  intro ts
  induction ts with
  | nil => intro acc txt ts1 h _; exact Except.noConfusion h
  | cons a as ih =>
      intro acc txt ts1 h hz
      unfold unitsCollect at h
      split at h
      · cases h
        exact fun x hx => hz x (by simp [hx])
      · exact ih _ _ _ h (fun x hx => hz x (by simp [hx]))

theorem parseUnits_zm {ts : List Token} {u : Option Units} {ts1 : List Token}
    (h : parseUnits ts = .ok (u, ts1)) (hz : TokListZM ts) : TokListZM ts1 := by
  unfold parseUnits at h
  cases hnt : nextTok ts with
  | error e => rw [hnt] at h; exact Except.noConfusion h
  | ok p =>
      obtain ⟨tok1, ts2⟩ := p
      rw [hnt] at h
      simp only [epBindOk] at h
      have hn := nextTok_zm hnt hz
      by_cases hb : hasKey tok1 "open_bracket"
      · rw [if_pos hb] at h
        cases hc : unitsCollect ts2 "" with
        | error e =>
            rw [hc] at h
            simp only [epBindErr] at h
            exact Except.noConfusion h
        | ok q =>
            obtain ⟨txt, ts3⟩ := q
            rw [hc] at h
            simp only [epBindOk] at h
            cases hu : unitsInit txt with
            | error e =>
                rw [hu] at h
                simp only [epBindErr] at h
                exact Except.noConfusion h
            | ok uu =>
                rw [hu] at h
                simp only [epBindOk, epPure] at h
                cases h
                exact unitsCollect_zm _ _ _ _ hc hn.2
      · rw [if_neg hb] at h
        simp only [epPure] at h
        cases h
        intro x hx
        rcases List.mem_cons.mp hx with rfl | hx2
        · exact hn.1
        · exact hn.2 x hx2

theorem stmtsAppend_mem {acc : List PStatement} {st : PStatement}
    {acc2 : List PStatement} (h : stmtsAppend acc st = .ok acc2) :
    ∀ x ∈ acc2, x ∈ acc ∨ x = st := by
  have h2 : stmtsInsert (acc.length : Int) st acc = .ok acc2 := h
  obtain ⟨-, h3⟩ := stmtsInsert_ok h2
  subst h3
  intro x hx
  rcases (mem_insertAt x st _ acc).mp hx with h1 | h1
  · exact Or.inr h1
  · exact Or.inl h1

theorem groupStmtsAppend_mem {acc : List PStatement} {st : PStatement}
    {acc2 : List PStatement} (h : groupStmtsAppend acc st = .ok acc2) :
    isAttr st = true ∧ ∀ x ∈ acc2, x ∈ acc ∨ x = st := by
  have h2 : groupStmtsInsert (acc.length : Int) st acc = .ok acc2 := h
  obtain ⟨ha, hi⟩ := groupStmtsInsert_ok h2
  exact ⟨ha, stmtsAppend_mem hi⟩

theorem identifierInit_zm {s : String} {b : Bool} {sc : PScalar}
    (h : identifierInit s b = .ok sc) : scalarZM sc = true := by
  unfold identifierInit at h
  split at h
  · exact Except.noConfusion h
  · cases h; rfl

theorem symbolInit_zm {s : String} {b : Bool} {sc : PScalar}
    (h : symbolInit s b = .ok sc) : scalarZM sc = true := by
  unfold symbolInit at h
  split at h
  · exact Except.noConfusion h
  · cases h; rfl

theorem textInit_zm {s : String} {b : Bool} {sc : PScalar}
    (h : textInit s b = .ok sc) : scalarZM sc = true := by
  unfold textInit at h
  split at h
  · exact Except.noConfusion h
  · cases h; rfl

theorem basedIntegerInit_zm {rad : Int} {digits : String}
    {un : Option Units} {sc : PScalar}
    (h : basedIntegerInit rad digits un = .ok sc) : scalarZM sc = true := by
  unfold basedIntegerInit at h
  repeat' first
    | split at h
    | (dsimp only [] at h)
    | (simp only [epBindOk, epBindErr, epPure, epThrow] at h)
  all_goals first
    | exact Except.noConfusion h
    | (cases h; rfl)

end Pyds

namespace Pyds

theorem optInt_none : optInt none = .ok none := rfl

theorem tokListZM_nil : TokListZM [] := fun x hx => absurd hx (by simp)

/-- The zone-minute invariant of `_parse_value` at a given fuel. -/
def valueInv (fuel : Nat) : Prop :=
  ∀ tok ts v ts1, tokGet tok "zone_minute" = none → TokListZM ts →
    parseValue fuel tok ts = .ok (v, ts1) → valueZM v = true ∧ TokListZM ts1

/-- The invariant of the sequence element generator head. -/
def seqFirstInv (fuel : Nat) : Prop :=
  ∀ tok ts vs ts1, tokGet tok "zone_minute" = none → TokListZM ts →
    collectSeqFirst fuel tok ts = .ok (vs, ts1) →
      valueListZM vs = true ∧ TokListZM ts1

/-- The invariant of the sequence element loop. -/
def seqRestInv (fuel : Nat) : Prop :=
  ∀ acc ts vs ts1, valueListZM acc = true → TokListZM ts →
    collectSeqRest fuel acc ts = .ok (vs, ts1) →
      valueListZM vs = true ∧ TokListZM ts1

/-- The invariant of the set element generator head. -/
def setInv (fuel : Nat) : Prop :=
  ∀ ts vs ts1, TokListZM ts →
    collectSet fuel ts = .ok (vs, ts1) →
      valueListZM vs = true ∧ TokListZM ts1

/-- The invariant of the set element loop. -/
def setRestInv (fuel : Nat) : Prop :=
  ∀ acc ts vs ts1, valueListZM acc = true → TokListZM ts →
    collectSetRest fuel acc ts = .ok (vs, ts1) →
      valueListZM vs = true ∧ TokListZM ts1

/-- The combined zone-minute and group-purity invariant of
`_parse_stmt`. -/
def stmtInv (fuel : Nat) : Prop :=
  ∀ tok ts st ts1, tokGet tok "zone_minute" = none → TokListZM ts →
    parseStmt fuel tok ts = .ok (st, ts1) →
      (stmtZM st = true ∧ stmtPure st = true) ∧ TokListZM ts1

/-- The invariant of the object body loop. -/
def objBodyInv (fuel : Nat) : Prop :=
  ∀ acc ts body ts1, stmtListZM acc = true → stmtListPure acc = true →
    TokListZM ts → objBody fuel acc ts = .ok (body, ts1) →
      (stmtListZM body = true ∧ stmtListPure body = true) ∧ TokListZM ts1

/-- The invariant of the group body loop: the accumulated body stays
all-`Attribute`. -/
def grpBodyInv (fuel : Nat) : Prop :=
  ∀ acc ts body ts1, stmtListZM acc = true → stmtListAttr acc = true →
    TokListZM ts → grpBody fuel acc ts = .ok (body, ts1) →
      (stmtListZM body = true ∧ stmtListAttr body = true) ∧ TokListZM ts1

/-- The invariant of the label loop. -/
def labelLoopInv (fuel : Nat) : Prop :=
  ∀ acc ts stmts, stmtListZM acc = true → stmtListPure acc = true →
    TokListZM ts → parseLabelLoop fuel acc ts = .ok stmts →
      stmtListZM stmts = true ∧ stmtListPure stmts = true

theorem valueInv_step (fuel : Nat) (hSF : seqFirstInv fuel)
    (hSet : setInv fuel) : valueInv (fuel + 1) := by
  intro tok ts v ts1 hzt hlz h
  simp only [parseValue] at h
  rw [hzt] at h
  by_cases h1 : hasKey tok "open_paren"
  · rw [if_pos h1] at h
    cases hnt : nextTok ts with
    | error e =>
        rw [hnt] at h; simp only [epBindErr] at h; exact Except.noConfusion h
    | ok p =>
        obtain ⟨tok2, tsA⟩ := p
        rw [hnt] at h
        simp only [epBindOk] at h
        obtain ⟨hz2, hlzA⟩ := nextTok_zm hnt hlz
        by_cases h2 : hasKey tok2 "open_paren"
        · rw [if_pos h2] at h
          cases hsf : collectSeqFirst fuel tok2 tsA with
          | error e =>
              rw [hsf] at h; simp only [epBindErr] at h
              exact Except.noConfusion h
          | ok q =>
              obtain ⟨vals, tsB⟩ := q
              rw [hsf] at h
              simp only [epBindOk] at h
              obtain ⟨hvals, hlzB⟩ := hSF tok2 tsA vals tsB hz2 hlzA hsf
              cases hs2 : seq2Init vals with
              | error e =>
                  rw [hs2] at h; simp only [epBindErr] at h
                  exact Except.noConfusion h
              | ok v0 =>
                  rw [hs2] at h
                  simp only [epBindOk, epPure] at h
                  cases h
                  obtain ⟨elems, rfl, hmem⟩ := seq2Init_mem hs2
                  refine ⟨?_, hlzB⟩
                  show valueListZM elems = true
                  rw [valueListZM_iff]
                  intro x hx
                  exact (valueListZM_iff vals).mp hvals x (hmem x hx)
        · rw [if_neg h2] at h
          cases hsf : collectSeqFirst fuel tok2 tsA with
          | error e =>
              rw [hsf] at h; simp only [epBindErr] at h
              exact Except.noConfusion h
          | ok q =>
              obtain ⟨vals, tsB⟩ := q
              rw [hsf] at h
              simp only [epBindOk] at h
              obtain ⟨hvals, hlzB⟩ := hSF tok2 tsA vals tsB hz2 hlzA hsf
              cases hs1 : seq1Init vals with
              | error e =>
                  rw [hs1] at h; simp only [epBindErr] at h
                  exact Except.noConfusion h
              | ok v0 =>
                  rw [hs1] at h
                  simp only [epBindOk, epPure] at h
                  cases h
                  obtain ⟨elems, rfl, hmem⟩ := seq1Init_mem hs1
                  refine ⟨?_, hlzB⟩
                  show valueListZM elems = true
                  rw [valueListZM_iff]
                  intro x hx
                  exact (valueListZM_iff vals).mp hvals x (hmem x hx)
  · rw [if_neg h1] at h
    by_cases h2 : hasKey tok "open_brace"
    · rw [if_pos h2] at h
      cases hcs : collectSet fuel ts with
      | error e =>
          rw [hcs] at h; simp only [epBindErr] at h; exact Except.noConfusion h
      | ok q =>
          obtain ⟨vals, tsB⟩ := q
          rw [hcs] at h
          simp only [epBindOk] at h
          obtain ⟨hvals, hlzB⟩ := hSet ts vals tsB hlz hcs
          cases hsi : setInit vals with
          | error e =>
              rw [hsi] at h; simp only [epBindErr] at h
              exact Except.noConfusion h
          | ok v0 =>
              rw [hsi] at h
              simp only [epBindOk, epPure] at h
              cases h
              obtain ⟨elems, rfl, hmem⟩ := setInit_mem hsi
              refine ⟨?_, hlzB⟩
              show elems.all scalarZM = true
              rw [List.all_eq_true]
              intro s hs
              exact (valueListZM_iff vals).mp hvals (.scalar s) (hmem s hs)
    · rw [if_neg h2] at h
      by_cases h3 : hasKey tok "identifier"
      · rw [if_pos h3] at h
        cases hii : identifierInit ((tokGet tok "identifier").getD "") false with
        | error e =>
            rw [hii] at h; simp only [epBindErr] at h
            exact Except.noConfusion h
        | ok sc =>
            rw [hii] at h
            simp only [epBindOk, epPure] at h
            cases h
            exact ⟨identifierInit_zm hii, hlz⟩
      · rw [if_neg h3] at h
        by_cases h4 : hasKey tok "symbol"
        · rw [if_pos h4] at h
          cases hsy : symbolInit ((tokGet tok "string").getD "") false with
          | error e =>
              rw [hsy] at h; simp only [epBindErr] at h
              exact Except.noConfusion h
          | ok sc =>
              rw [hsy] at h
              simp only [epBindOk, epPure] at h
              cases h
              exact ⟨symbolInit_zm hsy, hlz⟩
        · rw [if_neg h4] at h
          by_cases h5 : hasKey tok "text"
          · rw [if_pos h5] at h
            cases htx : textInit ((tokGet tok "string").getD "") false with
            | error e =>
                rw [htx] at h; simp only [epBindErr] at h
                exact Except.noConfusion h
            | ok sc =>
                rw [htx] at h
                simp only [epBindOk, epPure] at h
                cases h
                exact ⟨textInit_zm htx, hlz⟩
          · rw [if_neg h5] at h
            by_cases h6 : hasKey tok "date"
            · rw [if_pos h6] at h
              cases hy : reqInt (tokGet tok "year") with
              | error e =>
                  rw [hy] at h; simp only [epBindErr] at h
                  exact Except.noConfusion h
              | ok y =>
                  rw [hy] at h
                  simp only [epBindOk] at h
                  cases hmo : optInt (tokGet tok "month") with
                  | error e =>
                      rw [hmo] at h; simp only [epBindErr] at h
                      exact Except.noConfusion h
                  | ok mo =>
                      rw [hmo] at h
                      simp only [epBindOk] at h
                      cases hd : reqInt (tokGet tok "day") with
                      | error e =>
                          rw [hd] at h; simp only [epBindErr] at h
                          exact Except.noConfusion h
                      | ok d =>
                          rw [hd] at h
                          simp only [epBindOk] at h
                          cases hdi : dateInit y mo d with
                          | error e =>
                              rw [hdi] at h; simp only [epBindErr] at h
                              exact Except.noConfusion h
                          | ok dt =>
                              rw [hdi] at h
                              simp only [epBindOk, epPure] at h
                              cases h
                              exact ⟨rfl, hlz⟩
            · rw [if_neg h6] at h
              by_cases h7 : hasKey tok "time"
              · rw [if_pos h7] at h
                cases hh : reqInt (tokGet tok "hour") with
                | error e =>
                    rw [hh] at h; simp only [epBindErr] at h
                    exact Except.noConfusion h
                | ok hr =>
                    rw [hh] at h
                    simp only [epBindOk] at h
                    cases hm : reqInt (tokGet tok "minute") with
                    | error e =>
                        rw [hm] at h; simp only [epBindErr] at h
                        exact Except.noConfusion h
                    | ok mi =>
                        rw [hm] at h
                        simp only [epBindOk] at h
                        cases hsec : optRat (tokGet tok "second") with
                        | error e =>
                            rw [hsec] at h; simp only [epBindErr] at h
                            exact Except.noConfusion h
                        | ok sec =>
                            rw [hsec] at h
                            simp only [epBindOk] at h
                            cases hzh : optInt (tokGet tok "zone_hour") with
                            | error e =>
                                rw [hzh] at h; simp only [epBindErr] at h
                                exact Except.noConfusion h
                            | ok zh =>
                                rw [hzh] at h
                                simp only [epBindOk, optInt_none] at h
                                cases hti : timeInit hr mi sec
                                    ((tokGet tok "utc").isSome) zh none with
                                | error e =>
                                    rw [hti] at h
                                    simp only [epBindErr] at h
                                    exact Except.noConfusion h
                                | ok t =>
                                    rw [hti] at h
                                    simp only [epBindOk, epPure] at h
                                    cases h
                                    refine ⟨?_, hlz⟩
                                    show scalarZM (.time t) = true
                                    simp [scalarZM, timeInit_zm hti]
              · rw [if_neg h7] at h
                by_cases h8 : hasKey tok "date_time"
                · rw [if_pos h8] at h
                  cases hy : reqInt (tokGet tok "year") with
                  | error e =>
                      rw [hy] at h; simp only [epBindErr] at h
                      exact Except.noConfusion h
                  | ok y =>
                      rw [hy] at h
                      simp only [epBindOk] at h
                      cases hmo : optInt (tokGet tok "month") with
                      | error e =>
                          rw [hmo] at h; simp only [epBindErr] at h
                          exact Except.noConfusion h
                      | ok mo =>
                          rw [hmo] at h
                          simp only [epBindOk] at h
                          cases hd : reqInt (tokGet tok "day") with
                          | error e =>
                              rw [hd] at h; simp only [epBindErr] at h
                              exact Except.noConfusion h
                          | ok d =>
                              rw [hd] at h
                              simp only [epBindOk] at h
                              cases hh : reqInt (tokGet tok "hour") with
                              | error e =>
                                  rw [hh] at h; simp only [epBindErr] at h
                                  exact Except.noConfusion h
                              | ok hr =>
                                  rw [hh] at h
                                  simp only [epBindOk] at h
                                  cases hm : reqInt (tokGet tok "minute") with
                                  | error e =>
                                      rw [hm] at h
                                      simp only [epBindErr] at h
                                      exact Except.noConfusion h
                                  | ok mi =>
                                      rw [hm] at h
                                      simp only [epBindOk] at h
                                      cases hsec : optRat (tokGet tok "second") with
                                      | error e =>
                                          rw [hsec] at h
                                          simp only [epBindErr] at h
                                          exact Except.noConfusion h
                                      | ok sec =>
                                          rw [hsec] at h
                                          simp only [epBindOk] at h
                                          cases hzh : optInt (tokGet tok "zone_hour") with
                                          | error e =>
                                              rw [hzh] at h
                                              simp only [epBindErr] at h
                                              exact Except.noConfusion h
                                          | ok zh =>
                                              rw [hzh] at h
                                              simp only [epBindOk, optInt_none] at h
                                              cases hdt : dateTimeInit y mo d hr mi sec
                                                  ((tokGet tok "utc").isSome) zh none with
                                              | error e =>
                                                  rw [hdt] at h
                                                  simp only [epBindErr] at h
                                                  exact Except.noConfusion h
                                              | ok sc =>
                                                  rw [hdt] at h
                                                  simp only [epBindOk, epPure] at h
                                                  cases h
                                                  exact ⟨dateTimeInit_zm hdt, hlz⟩
                · rw [if_neg h8] at h
                  by_cases h9 : hasKey tok "integer"
                  · rw [if_pos h9] at h
                    cases hpu : parseUnits ts with
                    | error e =>
                        rw [hpu] at h; simp only [epBindErr] at h
                        exact Except.noConfusion h
                    | ok p =>
                        obtain ⟨units, tsA⟩ := p
                        rw [hpu] at h
                        simp only [epBindOk] at h
                        have hlzA := parseUnits_zm hpu hlz
                        cases hri : reqInt (tokGet tok "integer") with
                        | error e =>
                            rw [hri] at h; simp only [epBindErr] at h
                            exact Except.noConfusion h
                        | ok n =>
                            rw [hri] at h
                            simp only [epBindOk, epPure] at h
                            cases h
                            exact ⟨rfl, hlzA⟩
                  · rw [if_neg h9] at h
                    by_cases h10 : hasKey tok "based_integer"
                    · rw [if_pos h10] at h
                      cases hpu : parseUnits ts with
                      | error e =>
                          rw [hpu] at h; simp only [epBindErr] at h
                          exact Except.noConfusion h
                      | ok p =>
                          obtain ⟨units, tsA⟩ := p
                          rw [hpu] at h
                          simp only [epBindOk] at h
                          have hlzA := parseUnits_zm hpu hlz
                          cases hra : reqInt (tokGet tok "radix") with
                          | error e =>
                              rw [hra] at h; simp only [epBindErr] at h
                              exact Except.noConfusion h
                          | ok rad =>
                              rw [hra] at h
                              simp only [epBindOk] at h
                              cases hbi : basedIntegerInit rad
                                  ((tokGet tok "digits").getD "") units with
                              | error e =>
                                  rw [hbi] at h; simp only [epBindErr] at h
                                  exact Except.noConfusion h
                              | ok sc =>
                                  rw [hbi] at h
                                  simp only [epBindOk, epPure] at h
                                  cases h
                                  exact ⟨basedIntegerInit_zm hbi, hlzA⟩
                    · rw [if_neg h10] at h
                      by_cases h11 : hasKey tok "real"
                      · rw [if_pos h11] at h
                        cases hpu : parseUnits ts with
                        | error e =>
                            rw [hpu] at h; simp only [epBindErr] at h
                            exact Except.noConfusion h
                        | ok p =>
                            obtain ⟨units, tsA⟩ := p
                            rw [hpu] at h
                            simp only [epBindOk] at h
                            have hlzA := parseUnits_zm hpu hlz
                            cases hrr : reqRat (tokGet tok "real") with
                            | error e =>
                                rw [hrr] at h; simp only [epBindErr] at h
                                exact Except.noConfusion h
                            | ok q =>
                                rw [hrr] at h
                                simp only [epBindOk, epPure] at h
                                cases h
                                exact ⟨rfl, hlzA⟩
                      · rw [if_neg h11] at h
                        exact Except.noConfusion h

end Pyds

namespace Pyds

theorem seqFirstInv_step (fuel : Nat) (hV : valueInv fuel)
    (hSR : seqRestInv fuel) : seqFirstInv (fuel + 1) := by
  intro tok ts vs ts1 hzt hlz h
  simp only [collectSeqFirst] at h
  split at h
  · cases h
    exact ⟨rfl, tokListZM_nil⟩
  · exact Except.noConfusion h
  · next v2 tsA heq =>
      obtain ⟨hv2, hlzA⟩ := hV tok ts v2 tsA hzt hlz heq
      exact hSR [v2] tsA vs ts1 (by simp [valueListZM, hv2]) hlzA h

theorem seqRestInv_step (fuel : Nat) (hV : valueInv fuel)
    (hSR : seqRestInv fuel) : seqRestInv (fuel + 1) := by
  intro acc ts vs ts1 hacc hlz h
  simp only [collectSeqRest] at h
  split at h
  · cases h
    exact ⟨hacc, tokListZM_nil⟩
  · next tok3 tsA heq =>
      obtain ⟨hz3, hlzA⟩ := nextTok_zm heq hlz
      by_cases hcp : hasKey tok3 "close_paren"
      · rw [if_pos hcp] at h
        cases h
        exact ⟨hacc, hlzA⟩
      · rw [if_neg hcp] at h
        by_cases hcm : ¬hasKey tok3 "comma"
        · rw [if_pos hcm] at h
          exact Except.noConfusion h
        · rw [if_neg hcm] at h
          split at h
          · cases h
            exact ⟨hacc, tokListZM_nil⟩
          · next tokE tsB heq2 =>
              obtain ⟨hzE, hlzB⟩ := nextTok_zm heq2 hlzA
              split at h
              · cases h
                exact ⟨hacc, tokListZM_nil⟩
              · exact Except.noConfusion h
              · next v2 tsC heq3 =>
                  obtain ⟨hv2, hlzC⟩ := hV tokE tsB v2 tsC hzE hlzB heq3
                  refine hSR (acc ++ [v2]) tsC vs ts1 ?_ hlzC h
                  rw [valueListZM_iff]
                  intro x hx
                  rcases List.mem_append.mp hx with h1 | h1
                  · exact (valueListZM_iff acc).mp hacc x h1
                  · simp at h1
                    subst h1
                    exact hv2

theorem setInv_step (fuel : Nat) (hV : valueInv fuel)
    (hSetR : setRestInv fuel) : setInv (fuel + 1) := by
  intro ts vs ts1 hlz h
  simp only [collectSet] at h
  split at h
  · cases h
    exact ⟨rfl, tokListZM_nil⟩
  · next tok2 tsA heq =>
      obtain ⟨hz2, hlzA⟩ := nextTok_zm heq hlz
      by_cases hcb : hasKey tok2 "close_brace"
      · rw [if_pos hcb] at h
        cases h
        exact ⟨rfl, hlzA⟩
      · rw [if_neg hcb] at h
        split at h
        · cases h
          exact ⟨rfl, tokListZM_nil⟩
        · exact Except.noConfusion h
        · next v2 tsB heq2 =>
            obtain ⟨hv2, hlzB⟩ := hV tok2 tsA v2 tsB hz2 hlzA heq2
            exact hSetR [v2] tsB vs ts1 (by simp [valueListZM, hv2]) hlzB h

theorem setRestInv_step (fuel : Nat) (hV : valueInv fuel)
    (hSetR : setRestInv fuel) : setRestInv (fuel + 1) := by
  intro acc ts vs ts1 hacc hlz h
  simp only [collectSetRest] at h
  split at h
  · cases h
    exact ⟨hacc, tokListZM_nil⟩
  · next tok2 tsA heq =>
      obtain ⟨hz2, hlzA⟩ := nextTok_zm heq hlz
      by_cases hcb : hasKey tok2 "close_brace"
      · rw [if_pos hcb] at h
        cases h
        exact ⟨hacc, hlzA⟩
      · rw [if_neg hcb] at h
        by_cases hcm : ¬hasKey tok2 "comma"
        · rw [if_pos hcm] at h
          exact Except.noConfusion h
        · rw [if_neg hcm] at h
          split at h
          · cases h
            exact ⟨hacc, tokListZM_nil⟩
          · next tokE tsB heq2 =>
              obtain ⟨hzE, hlzB⟩ := nextTok_zm heq2 hlzA
              split at h
              · cases h
                exact ⟨hacc, tokListZM_nil⟩
              · exact Except.noConfusion h
              · next v2 tsC heq3 =>
                  obtain ⟨hv2, hlzC⟩ := hV tokE tsB v2 tsC hzE hlzB heq3
                  refine hSetR (acc ++ [v2]) tsC vs ts1 ?_ hlzC h
                  rw [valueListZM_iff]
                  intro x hx
                  rcases List.mem_append.mp hx with h1 | h1
                  · exact (valueListZM_iff acc).mp hacc x h1
                  · simp at h1
                    subst h1
                    exact hv2

end Pyds

namespace Pyds

theorem stmtInv_step (fuel : Nat) (hV : valueInv fuel)
    (hObj : objBodyInv fuel) (hGrp : grpBodyInv fuel) :
    stmtInv (fuel + 1) := by
  intro tok ts st ts1 hzt hlz h
  simp only [parseStmt] at h
  by_cases h1 : hasKey tok "identifier"
  · rw [if_pos h1] at h
    cases hnt : nextTok ts with
    | error e =>
        rw [hnt] at h; simp only [epBindErr] at h; exact Except.noConfusion h
    | ok p =>
        obtain ⟨tok2, tsA⟩ := p
        rw [hnt] at h
        simp only [epBindOk] at h
        obtain ⟨hz2, hlzA⟩ := nextTok_zm hnt hlz
        by_cases hcl : hasKey tok2 "colon"
        · rw [if_pos hcl] at h
          cases hnt2 : nextTok tsA with
          | error e =>
              rw [hnt2] at h; simp only [epBindErr] at h
              exact Except.noConfusion h
          | ok p2 =>
              obtain ⟨tok3, tsB⟩ := p2
              rw [hnt2] at h
              simp only [epBindOk] at h
              obtain ⟨hz3, hlzB⟩ := nextTok_zm hnt2 hlzA
              by_cases hid3 : ¬hasKey tok3 "identifier"
              · rw [if_pos hid3] at h
                simp only [epThrow, epBindErr] at h
                exact Except.noConfusion h
              · rw [if_neg hid3] at h
                cases hnt3 : nextTok tsB with
                | error e =>
                    rw [hnt3] at h; simp only [epBindErr] at h
                    exact Except.noConfusion h
                | ok p3 =>
                    obtain ⟨tok2b, tsC⟩ := p3
                    rw [hnt3] at h
                    simp only [epBindOk, epPure] at h
                    obtain ⟨hz2b, hlzC⟩ := nextTok_zm hnt3 hlzB
                    by_cases heq : ¬hasKey tok2b "equal"
                    · rw [if_pos heq] at h
                      simp only [epThrow] at h
                      exact Except.noConfusion h
                    · rw [if_neg heq] at h
                      cases hnt4 : nextTok tsC with
                      | error e =>
                          rw [hnt4] at h; simp only [epBindErr] at h
                          exact Except.noConfusion h
                      | ok p4 =>
                          obtain ⟨tokV, tsD⟩ := p4
                          rw [hnt4] at h
                          simp only [epBindOk] at h
                          obtain ⟨hzV, hlzD⟩ := nextTok_zm hnt4 hlzC
                          cases hpv : parseValue fuel tokV tsD with
                          | error e =>
                              rw [hpv] at h; simp only [epBindErr] at h
                              exact Except.noConfusion h
                          | ok p5 =>
                              obtain ⟨value, tsE⟩ := p5
                              rw [hpv] at h
                              simp only [epBindOk] at h
                              obtain ⟨hval, hlzE⟩ := hV tokV tsD value tsE hzV hlzD hpv
                              cases hai : attributeInit ((tokGet tok "identifier").getD "" ++ ":" ++
                                  (tokGet tok3 "identifier").getD "") value false with
                              | error e =>
                                  rw [hai] at h; simp only [epBindErr] at h
                                  exact Except.noConfusion h
                              | ok st0 =>
                                  rw [hai] at h
                                  simp only [epBindOk, epPure] at h
                                  cases h
                                  rw [attributeInit_ok hai]
                                  exact ⟨⟨hval, rfl⟩, hlzE⟩
        · rw [if_neg hcl] at h
          simp only [epPure, epBindOk] at h
          by_cases heq : ¬hasKey tok2 "equal"
          · rw [if_pos heq] at h
            simp only [epThrow] at h
            exact Except.noConfusion h
          · rw [if_neg heq] at h
            cases hnt4 : nextTok tsA with
            | error e =>
                rw [hnt4] at h; simp only [epBindErr] at h
                exact Except.noConfusion h
            | ok p4 =>
                obtain ⟨tokV, tsD⟩ := p4
                rw [hnt4] at h
                simp only [epBindOk] at h
                obtain ⟨hzV, hlzD⟩ := nextTok_zm hnt4 hlzA
                cases hpv : parseValue fuel tokV tsD with
                | error e =>
                    rw [hpv] at h; simp only [epBindErr] at h
                    exact Except.noConfusion h
                | ok p5 =>
                    obtain ⟨value, tsE⟩ := p5
                    rw [hpv] at h
                    simp only [epBindOk] at h
                    obtain ⟨hval, hlzE⟩ := hV tokV tsD value tsE hzV hlzD hpv
                    cases hai : attributeInit ((tokGet tok "identifier").getD "")
                        value false with
                    | error e =>
                        rw [hai] at h; simp only [epBindErr] at h
                        exact Except.noConfusion h
                    | ok st0 =>
                        rw [hai] at h
                        simp only [epBindOk, epPure] at h
                        cases h
                        rw [attributeInit_ok hai]
                        exact ⟨⟨hval, rfl⟩, hlzE⟩
  · rw [if_neg h1] at h
    by_cases h2 : hasKey tok "circumflex"
    · rw [if_pos h2] at h
      cases hnt : nextTok ts with
      | error e =>
          rw [hnt] at h; simp only [epBindErr] at h; exact Except.noConfusion h
      | ok p =>
          obtain ⟨tok2, tsA⟩ := p
          rw [hnt] at h
          simp only [epBindOk] at h
          obtain ⟨hz2, hlzA⟩ := nextTok_zm hnt hlz
          by_cases hid2 : ¬hasKey tok2 "identifier"
          · rw [if_pos hid2] at h
            simp only [epThrow] at h
            exact Except.noConfusion h
          · rw [if_neg hid2] at h
            cases hnt2 : nextTok tsA with
            | error e =>
                rw [hnt2] at h; simp only [epBindErr] at h
                exact Except.noConfusion h
            | ok p2 =>
                obtain ⟨tok3, tsB⟩ := p2
                rw [hnt2] at h
                simp only [epBindOk] at h
                obtain ⟨hz3, hlzB⟩ := nextTok_zm hnt2 hlzA
                by_cases heq : ¬hasKey tok3 "equal"
                · rw [if_pos heq] at h
                  simp only [epThrow] at h
                  exact Except.noConfusion h
                · rw [if_neg heq] at h
                  cases hnt3 : nextTok tsB with
                  | error e =>
                      rw [hnt3] at h; simp only [epBindErr] at h
                      exact Except.noConfusion h
                  | ok p3 =>
                      obtain ⟨tokV, tsC⟩ := p3
                      rw [hnt3] at h
                      simp only [epBindOk] at h
                      obtain ⟨hzV, hlzC⟩ := nextTok_zm hnt3 hlzB
                      cases hpv : parseValue fuel tokV tsC with
                      | error e =>
                          rw [hpv] at h; simp only [epBindErr] at h
                          exact Except.noConfusion h
                      | ok p4 =>
                          obtain ⟨value, tsD⟩ := p4
                          rw [hpv] at h
                          simp only [epBindOk] at h
                          obtain ⟨hval, hlzD⟩ := hV tokV tsC value tsD hzV hlzC hpv
                          cases hai : attributeInit ("^" ++
                              (tokGet tok2 "identifier").getD "") value false with
                          | error e =>
                              rw [hai] at h; simp only [epBindErr] at h
                              exact Except.noConfusion h
                          | ok st0 =>
                              rw [hai] at h
                              simp only [epBindOk, epPure] at h
                              cases h
                              rw [attributeInit_ok hai]
                              exact ⟨⟨hval, rfl⟩, hlzD⟩
    · rw [if_neg h2] at h
      by_cases h3 : hasKey tok "begin_object"
      · rw [if_pos h3] at h
        cases hnt : nextTok ts with
        | error e =>
            rw [hnt] at h; simp only [epBindErr] at h; exact Except.noConfusion h
        | ok p =>
            obtain ⟨tok2, tsA⟩ := p
            rw [hnt] at h
            simp only [epBindOk] at h
            obtain ⟨hz2, hlzA⟩ := nextTok_zm hnt hlz
            by_cases heq : ¬hasKey tok2 "equal"
            · rw [if_pos heq] at h
              simp only [epThrow] at h
              exact Except.noConfusion h
            · rw [if_neg heq] at h
              cases hnt2 : nextTok tsA with
              | error e =>
                  rw [hnt2] at h; simp only [epBindErr] at h
                  exact Except.noConfusion h
              | ok p2 =>
                  obtain ⟨tok3, tsB⟩ := p2
                  rw [hnt2] at h
                  simp only [epBindOk] at h
                  obtain ⟨hz3, hlzB⟩ := nextTok_zm hnt2 hlzA
                  by_cases hid3 : ¬hasKey tok3 "identifier"
                  · rw [if_pos hid3] at h
                    simp only [epThrow] at h
                    exact Except.noConfusion h
                  · rw [if_neg hid3] at h
                    cases hob : objBody fuel [] tsB with
                    | error e =>
                        rw [hob] at h; simp only [epBindErr] at h
                        exact Except.noConfusion h
                    | ok p3 =>
                        obtain ⟨body, tsC⟩ := p3
                        rw [hob] at h
                        simp only [epBindOk] at h
                        obtain ⟨⟨hbZ, hbP⟩, hlzC⟩ :=
                          hObj [] tsB body tsC rfl rfl hlzB hob
                        cases hnt5 : nextTok tsC with
                        | error e =>
                            rw [hnt5] at h; simp only [epBindErr] at h
                            exact Except.noConfusion h
                        | ok p4 =>
                            obtain ⟨tok5, tsD⟩ := p4
                            rw [hnt5] at h
                            simp only [epBindOk] at h
                            obtain ⟨hz5, hlzD⟩ := nextTok_zm hnt5 hlzC
                            by_cases he5 : hasKey tok5 "equal"
                            · rw [if_pos he5] at h
                              cases hnt6 : nextTok tsD with
                              | error e =>
                                  rw [hnt6] at h; simp only [epBindErr] at h
                                  exact Except.noConfusion h
                              | ok p5 =>
                                  obtain ⟨tok6, tsE⟩ := p5
                                  rw [hnt6] at h
                                  simp only [epBindOk] at h
                                  obtain ⟨hz6, hlzE⟩ := nextTok_zm hnt6 hlzD
                                  by_cases hid6 : ¬hasKey tok6 "identifier"
                                  · rw [if_pos hid6] at h
                                    simp only [epThrow, epBindErr] at h
                                    exact Except.noConfusion h
                                  · rw [if_neg hid6] at h
                                    by_cases hne : (tokGet tok6 "identifier").getD "" ≠
                                        (tokGet tok3 "identifier").getD ""
                                    · rw [if_pos hne] at h
                                      simp only [epThrow, epBindErr] at h
                                      exact Except.noConfusion h
                                    · rw [if_neg hne] at h
                                      simp only [epPure, epBindOk] at h
                                      cases hoi : objectInit
                                          ((tokGet tok3 "identifier").getD "")
                                          body false with
                                      | error e =>
                                          rw [hoi] at h
                                          simp only [epBindErr] at h
                                          exact Except.noConfusion h
                                      | ok st0 =>
                                          rw [hoi] at h
                                          simp only [epBindOk, epPure] at h
                                          cases h
                                          rw [objectInit_ok hoi]
                                          exact ⟨⟨hbZ, hbP⟩, hlzE⟩
                            · rw [if_neg he5] at h
                              simp only [epPure, epBindOk] at h
                              cases hoi : objectInit
                                  ((tokGet tok3 "identifier").getD "")
                                  body false with
                              | error e =>
                                  rw [hoi] at h
                                  simp only [epBindErr] at h
                                  exact Except.noConfusion h
                              | ok st0 =>
                                  rw [hoi] at h
                                  simp only [epBindOk, epPure] at h
                                  cases h
                                  rw [objectInit_ok hoi]
                                  refine ⟨⟨hbZ, hbP⟩, ?_⟩
                                  intro x hx
                                  rcases List.mem_cons.mp hx with rfl | hx2
                                  · exact hz5
                                  · exact hlzD x hx2
      · rw [if_neg h3] at h
        by_cases h4 : hasKey tok "begin_group"
        · rw [if_pos h4] at h
          cases hnt : nextTok ts with
          | error e =>
              rw [hnt] at h; simp only [epBindErr] at h
              exact Except.noConfusion h
          | ok p =>
              obtain ⟨tok2, tsA⟩ := p
              rw [hnt] at h
              simp only [epBindOk] at h
              obtain ⟨hz2, hlzA⟩ := nextTok_zm hnt hlz
              by_cases heq : ¬hasKey tok2 "equal"
              · rw [if_pos heq] at h
                simp only [epThrow] at h
                exact Except.noConfusion h
              · rw [if_neg heq] at h
                cases hnt2 : nextTok tsA with
                | error e =>
                    rw [hnt2] at h; simp only [epBindErr] at h
                    exact Except.noConfusion h
                | ok p2 =>
                    obtain ⟨tok3, tsB⟩ := p2
                    rw [hnt2] at h
                    simp only [epBindOk] at h
                    obtain ⟨hz3, hlzB⟩ := nextTok_zm hnt2 hlzA
                    by_cases hid3 : ¬hasKey tok3 "identifier"
                    · rw [if_pos hid3] at h
                      simp only [epThrow] at h
                      exact Except.noConfusion h
                    · rw [if_neg hid3] at h
                      cases hgb : grpBody fuel [] tsB with
                      | error e =>
                          rw [hgb] at h; simp only [epBindErr] at h
                          exact Except.noConfusion h
                      | ok p3 =>
                          obtain ⟨body, tsC⟩ := p3
                          rw [hgb] at h
                          simp only [epBindOk] at h
                          obtain ⟨⟨hbZ, hbA⟩, hlzC⟩ :=
                            hGrp [] tsB body tsC rfl rfl hlzB hgb
                          cases hnt5 : nextTok tsC with
                          | error e =>
                              rw [hnt5] at h; simp only [epBindErr] at h
                              exact Except.noConfusion h
                          | ok p4 =>
                              obtain ⟨tok5, tsD⟩ := p4
                              rw [hnt5] at h
                              simp only [epBindOk] at h
                              obtain ⟨hz5, hlzD⟩ := nextTok_zm hnt5 hlzC
                              by_cases he5 : hasKey tok5 "equal"
                              · rw [if_pos he5] at h
                                cases hnt6 : nextTok tsD with
                                | error e =>
                                    rw [hnt6] at h
                                    simp only [epBindErr] at h
                                    exact Except.noConfusion h
                                | ok p5 =>
                                    obtain ⟨tok6, tsE⟩ := p5
                                    rw [hnt6] at h
                                    simp only [epBindOk] at h
                                    obtain ⟨hz6, hlzE⟩ := nextTok_zm hnt6 hlzD
                                    by_cases hid6 : ¬hasKey tok6 "identifier"
                                    · rw [if_pos hid6] at h
                                      simp only [epThrow, epBindErr] at h
                                      exact Except.noConfusion h
                                    · rw [if_neg hid6] at h
                                      by_cases hne : (tokGet tok6 "identifier").getD "" ≠
                                          (tokGet tok3 "identifier").getD ""
                                      · rw [if_pos hne] at h
                                        simp only [epThrow, epBindErr] at h
                                        exact Except.noConfusion h
                                      · rw [if_neg hne] at h
                                        simp only [epPure, epBindOk] at h
                                        cases hgi : groupInit
                                            ((tokGet tok3 "identifier").getD "")
                                            body false with
                                        | error e =>
                                            rw [hgi] at h
                                            simp only [epBindErr] at h
                                            exact Except.noConfusion h
                                        | ok st0 =>
                                            rw [hgi] at h
                                            simp only [epBindOk, epPure] at h
                                            cases h
                                            rw [groupInit_ok hgi]
                                            exact ⟨⟨hbZ, hbA⟩, hlzE⟩
                              · rw [if_neg he5] at h
                                simp only [epPure, epBindOk] at h
                                cases hgi : groupInit
                                    ((tokGet tok3 "identifier").getD "")
                                    body false with
                                | error e =>
                                    rw [hgi] at h
                                    simp only [epBindErr] at h
                                    exact Except.noConfusion h
                                | ok st0 =>
                                    rw [hgi] at h
                                    simp only [epBindOk, epPure] at h
                                    cases h
                                    rw [groupInit_ok hgi]
                                    refine ⟨⟨hbZ, hbA⟩, ?_⟩
                                    intro x hx
                                    rcases List.mem_cons.mp hx with rfl | hx2
                                    · exact hz5
                                    · exact hlzD x hx2
        · rw [if_neg h4] at h
          exact Except.noConfusion h

end Pyds

namespace Pyds

theorem objBodyInv_step (fuel : Nat) (hStmt : stmtInv fuel)
    (hObj : objBodyInv fuel) : objBodyInv (fuel + 1) := by
  intro acc ts body ts1 haccZ haccP hlz h
  simp only [objBody] at h
  cases hnt : nextTok ts with
  | error e =>
      rw [hnt] at h; simp only [epBindErr] at h; exact Except.noConfusion h
  | ok p =>
      obtain ⟨tok4, tsA⟩ := p
      rw [hnt] at h
      simp only [epBindOk] at h
      obtain ⟨hz4, hlzA⟩ := nextTok_zm hnt hlz
      by_cases he : hasKey tok4 "end_object"
      · rw [if_pos he] at h
        simp only [epPure] at h
        cases h
        exact ⟨⟨haccZ, haccP⟩, hlzA⟩
      · rw [if_neg he] at h
        cases hps : parseStmt fuel tok4 tsA with
        | error e =>
            rw [hps] at h; simp only [epBindErr] at h
            exact Except.noConfusion h
        | ok q =>
            obtain ⟨st, tsB⟩ := q
            rw [hps] at h
            simp only [epBindOk] at h
            obtain ⟨⟨hstZ, hstP⟩, hlzB⟩ := hStmt tok4 tsA st tsB hz4 hlzA hps
            cases hap : stmtsAppend acc st with
            | error e =>
                rw [hap] at h; simp only [epBindErr] at h
                exact Except.noConfusion h
            | ok acc2 =>
                rw [hap] at h
                simp only [epBindOk] at h
                have hmem := stmtsAppend_mem hap
                refine hObj acc2 tsB body ts1 ?_ ?_ hlzB h
                · rw [stmtListZM_iff]
                  intro x hx
                  rcases hmem x hx with h1 | rfl
                  · exact (stmtListZM_iff acc).mp haccZ x h1
                  · exact hstZ
                · rw [stmtListPure_iff]
                  intro x hx
                  rcases hmem x hx with h1 | rfl
                  · exact (stmtListPure_iff acc).mp haccP x h1
                  · exact hstP

theorem grpBodyInv_step (fuel : Nat) (hStmt : stmtInv fuel)
    (hGrp : grpBodyInv fuel) : grpBodyInv (fuel + 1) := by
  intro acc ts body ts1 haccZ haccA hlz h
  simp only [grpBody] at h
  cases hnt : nextTok ts with
  | error e =>
      rw [hnt] at h; simp only [epBindErr] at h; exact Except.noConfusion h
  | ok p =>
      obtain ⟨tok4, tsA⟩ := p
      rw [hnt] at h
      simp only [epBindOk] at h
      obtain ⟨hz4, hlzA⟩ := nextTok_zm hnt hlz
      by_cases he : hasKey tok4 "end_group"
      · rw [if_pos he] at h
        simp only [epPure] at h
        cases h
        exact ⟨⟨haccZ, haccA⟩, hlzA⟩
      · rw [if_neg he] at h
        cases hps : parseStmt fuel tok4 tsA with
        | error e =>
            rw [hps] at h; simp only [epBindErr] at h
            exact Except.noConfusion h
        | ok q =>
            obtain ⟨st, tsB⟩ := q
            rw [hps] at h
            simp only [epBindOk] at h
            obtain ⟨⟨hstZ, hstP⟩, hlzB⟩ := hStmt tok4 tsA st tsB hz4 hlzA hps
            cases hap : groupStmtsAppend acc st with
            | error e =>
                rw [hap] at h; simp only [epBindErr] at h
                exact Except.noConfusion h
            | ok acc2 =>
                rw [hap] at h
                simp only [epBindOk] at h
                obtain ⟨hattr, hmem⟩ := groupStmtsAppend_mem hap
                refine hGrp acc2 tsB body ts1 ?_ ?_ hlzB h
                · rw [stmtListZM_iff]
                  intro x hx
                  rcases hmem x hx with h1 | rfl
                  · exact (stmtListZM_iff acc).mp haccZ x h1
                  · exact hstZ
                · rw [stmtListAttr_iff]
                  intro x hx
                  rcases hmem x hx with h1 | rfl
                  · exact (stmtListAttr_iff acc).mp haccA x h1
                  · exact hattr

theorem labelLoopInv_step (fuel : Nat) (hStmt : stmtInv fuel)
    (hLoop : labelLoopInv fuel) : labelLoopInv (fuel + 1) := by
  intro acc ts stmts haccZ haccP hlz h
  simp only [parseLabelLoop] at h
  split at h
  · exact Except.noConfusion h
  · next tok tsA heq =>
      obtain ⟨hz, hlzA⟩ := nextTok_zm heq hlz
      by_cases he : hasKey tok "end"
      · rw [if_pos he] at h
        cases h
        exact ⟨haccZ, haccP⟩
      · rw [if_neg he] at h
        split at h
        · exact Except.noConfusion h
        · exact Except.noConfusion h
        · next st tsB heq2 =>
            obtain ⟨⟨hstZ, hstP⟩, hlzB⟩ := hStmt tok tsA st tsB hz hlzA heq2
            split at h
            · exact Except.noConfusion h
            · next acc2 heq3 =>
                have hmem := stmtsAppend_mem heq3
                refine hLoop acc2 tsB stmts ?_ ?_ hlzB h
                · rw [stmtListZM_iff]
                  intro x hx
                  rcases hmem x hx with h1 | rfl
                  · exact (stmtListZM_iff acc).mp haccZ x h1
                  · exact hstZ
                · rw [stmtListPure_iff]
                  intro x hx
                  rcases hmem x hx with h1 | rfl
                  · exact (stmtListPure_iff acc).mp haccP x h1
                  · exact hstP

theorem parserInvAll : ∀ fuel : Nat,
    valueInv fuel ∧ seqFirstInv fuel ∧ seqRestInv fuel ∧ setInv fuel ∧
    setRestInv fuel ∧ stmtInv fuel ∧ objBodyInv fuel ∧ grpBodyInv fuel ∧
    labelLoopInv fuel := by
  intro fuel
  induction fuel with
  | zero =>
      exact ⟨fun _ _ _ _ _ _ h => Except.noConfusion h,
             fun _ _ _ _ _ _ h => Except.noConfusion h,
             fun _ _ _ _ _ _ h => Except.noConfusion h,
             fun _ _ _ _ h => Except.noConfusion h,
             fun _ _ _ _ _ _ h => Except.noConfusion h,
             fun _ _ _ _ _ _ h => Except.noConfusion h,
             fun _ _ _ _ _ _ _ h => Except.noConfusion h,
             fun _ _ _ _ _ _ _ h => Except.noConfusion h,
             fun _ _ _ _ _ _ h => Except.noConfusion h⟩
  | succ fuel ih =>
      obtain ⟨hV, hSF, hSR, hSet, hSetR, hStmt, hObj, hGrp, hLoop⟩ := ih
      exact ⟨valueInv_step fuel hSF hSet,
             seqFirstInv_step fuel hV hSR,
             seqRestInv_step fuel hV hSR,
             setInv_step fuel hV hSetR,
             setRestInv_step fuel hV hSetR,
             stmtInv_step fuel hV hObj hGrp,
             objBodyInv_step fuel hStmt hObj,
             grpBodyInv_step fuel hStmt hGrp,
             labelLoopInv_step fuel hStmt hLoop⟩

/-- Every label the parser accepts satisfies both tree invariants:
every `Time`/`DateTime` carries `zone_minute = None`, and every
`Group` body holds only `Attribute` statements. -/
theorem parse_inv {s : String} {stmts : List PStatement}
    (h : parse s = .ok stmts) :
    stmtListZM stmts = true ∧ stmtListPure stmts = true := by
  unfold parse at h
  exact (parserInvAll 1000).2.2.2.2.2.2.2.2 [] (tokenize s) stmts rfl rfl
    (fun t ht => tokenizeFuel_zm _ _ t ht) h

end Pyds

namespace Pyds

/-- C6: every `Group` body, however built, contains only `Attribute`
statements.  (1) `GroupStatements.insert` (hence also `append` and the
parser body loop) rejects any non-`Attribute` statement with
`TypeError` before touching the container; (2) every `GroupStatements`
state reachable by the public mutating operations holds only
`Attribute` statements; (3) every label accepted by the parser is
group-pure: each `Group` body at any nesting depth holds only
`Attribute`s; (4) concretely, a parsed one-attribute group. -/
theorem c6_group_purity :
    (∀ (i : Int) (st : PStatement) (l : List PStatement),
        isAttr st = false →
          groupStmtsInsert i st l =
            .error (.typeError "statement is not an instance of Attribute")) ∧
    (∀ (l : List PStatement), Reach .grp l → ∀ st ∈ l, isAttr st = true) ∧
    (∀ (s : String) (stmts : List PStatement),
        parse s = .ok stmts → stmtListPure stmts = true) ∧
    parse "GROUP = G\r\nA = 1\r\nEND_GROUP = G\r\nEND" = .ok
      [.group "G" [.attribute "A" (.scalar (.integer 1 none))]] := by
  refine ⟨?_, ?_, fun s stmts h => (parse_inv h).2, by decide⟩
  · intro i st l hna
    unfold groupStmtsInsert
    rcases st with ⟨a, b⟩ | ⟨a, b⟩ | ⟨a, b⟩
    · exact absurd hna (by simp [isAttr])
    · rfl
    · rfl
  · intro l hr st hst
    exact (reach_inv .grp l hr).2 rfl st hst

theorem c6_group_purity_witness :
    groupStmtsInsert 0 (.group "H" []) [] =
      .error (.typeError "statement is not an instance of Attribute") ∧
    (∀ st ∈ [PStatement.attribute "A" (.scalar (.integer 5 none))],
        isAttr st = true) ∧
    stmtListPure [PStatement.group "G"
      [.attribute "A" (.scalar (.integer 1 none))]] = true := by
  refine ⟨c6_group_purity.1 0 (.group "H" []) [] (by decide), ?_, ?_⟩
  · have hok : StmtOk
        (PStatement.attribute "A" (.scalar (.integer 5 none))) := rfl
    have hins : contInsert ContKind.grp 0
        (PStatement.attribute "A" (.scalar (.integer 5 none))) [] =
        .ok [PStatement.attribute "A" (.scalar (.integer 5 none))] := by decide
    exact c6_group_purity.2.1 _ (Reach.ofInsert Reach.empty hok hins)
  · exact c6_group_purity.2.2.1 "GROUP = G\r\nA = 1\r\nEND_GROUP = G\r\nEND"
      _ (by decide)

/-- C10: for every input accepted by `parse`, every `Time` and
`DateTime` value in the resulting label has `zone_minute = None`, even
when the source literal spells out zone minutes: the token table
declares a `zone_minute` group whose index lies past the captures the
`time` and `date_time` patterns actually produce, so the digits are
matched and discarded.  (1) every token the tokenizer emits carries
`zone_minute = None`; (2) every accepted label satisfies the tree-wide
zone-minute invariant; (3) concretely, `A = 12:34+05:45 END` parses to
a `Time` with `zone_hour = 5` and `zone_minute = None`. -/
theorem c10_zone_minute_discarded :
    (∀ (fuel : Nat) (l : List Char) (t : Token),
        t ∈ tokenizeFuel fuel l → tokGet t "zone_minute" = none) ∧
    (∀ (s : String) (stmts : List PStatement),
        parse s = .ok stmts → stmtListZM stmts = true) ∧
    parse "A = 12:34+05:45 END" = .ok
      [.attribute "A" (.scalar (.time
        ⟨12, 34, none, false, some 5, none⟩))] :=
  ⟨tokenizeFuel_zm, fun s stmts h => (parse_inv h).1, by decide⟩

theorem c10_zone_minute_discarded_witness :
    stmtListZM [PStatement.attribute "A" (.scalar (.time
      ⟨12, 34, none, false, some 5, none⟩))] = true ∧
    tokGet (mkToken "time" "12:34Z"
      ["hour", "minute", "second", "utc", "zone_hour", "zone_minute"]
      [some "12", some "34", none, some "Z", none]) "zone_minute" = none := by
  constructor
  · exact c10_zone_minute_discarded.2.1 "A = 12:34+05:45 END" _ (by decide)
  · have hmem : mkToken "time" "12:34Z"
        ["hour", "minute", "second", "utc", "zone_hour", "zone_minute"]
        [some "12", some "34", none, some "Z", none] ∈
        tokenizeFuel ("12:34Z".data.length) "12:34Z".data := by decide
    exact c10_zone_minute_discarded.1 _ _ _ hmem

end Pyds
